import Mathlib

/-!
# Verification of the go-aof append-only log

Shallow embedding of the go-aof package (`aof.go`, handlers from the
revision whose `sizeFoldHandler` uses `bufRWEntrySize`/`bufRWEntryFlag`).

Modelling conventions:
* Bytes are `Nat` (written values are reduced mod 256 by the encoder).
* The underlying `*os.File` (opened with `O_APPEND`) is a `List Nat`.
  The program reads it through `bufio.NewReader` whose buffer holds
  `bufioBufSize = 4096` bytes.  `readEntry` models each read as
  returning `(min requested remaining, err)` with `err = io.EOF`
  exactly when no byte remains.  This coincides with the buffered
  reader precisely when at most `bufioBufSize` bytes remain past the
  seek position: the first read then either buffers the whole
  remainder in one fill (requests smaller than the buffer) or reads it
  directly (requests at least as large as the buffer), so no later
  read can short-serve mid-stream.  Beyond that window the real reader
  short-reads at refill boundaries, and `Entry.read`'s `rc` reset
  tears even complete frames; the buffered-reader model `readB` below
  captures this, `readEntryB_window` and `FoldWithHandlerB_window`
  prove the coincidence inside the window, and every theorem about
  reads carries a hypothesis confining the stream to the window.
  Bytes appended by a repair go to the end of the file and are not
  visible to the reader of the same traversal: the `O_APPEND` write
  moves the file offset to the new end, so refills hit end-of-file
  while the reader keeps serving its buffer — inside the window that
  buffer already holds the entire rest of the original file.
* The `bufio.Writer` is a `List Nat` buffer that reaches the file only
  on `Flush`, which is also where a broken stream (`wfail`) surfaces
  its error.  This matches the 4096-byte `bufio.Writer` while fewer
  than `bufioBufSize` bytes accumulate between flushes (no
  auto-flush); theorems whose conclusion depends on bytes *remaining
  unflushed* carry that bound.  On paths that end in an explicit
  successful flush the final file contents agree regardless of
  auto-flushing, and on a broken stream a large direct write fails at
  the `Write` call instead of at `Flush` — the source checks both and
  reacts identically, so the failure conclusions also agree.
* Fallible operations return errors from `AofErr`; `outOfFuel` is a
  fuel-exhaustion artifact of the loop encoding, unreachable for the
  fuel `FoldWithHandler` supplies.
-/

namespace Aof

/-- Flag byte `fIncompleteEntry` (= `1 << 0`) marking a torn frame. -/
def fIncompleteEntry : Nat := 1

/-- Flag byte `fCompleteEntry` (= `1 << 1`) marking a complete frame. -/
def fCompleteEntry : Nat := 2

/-- Size of the buffers allocated by `bufio.NewReader` and
`bufio.NewWriter` (Go's `bufio.defaultBufSize`).  It is the window
within which the byte-level stream model is exact: a buffered read
serves `min requested remaining` whenever at most this many bytes
remain past the seek position, and a buffered writer never auto-flushes
while at most this many bytes accumulate between explicit flushes. -/
def bufioBufSize : Nat := 4096

/-- Structural helper for `bitsLen` (fuel bounds the recursion depth so
that the kernel can evaluate it). -/
def bitsLenAux : Nat → Nat → Nat
  | 0, _ => 0
  | fuel + 1, n => if n = 0 then 0 else bitsLenAux fuel (n / 2) + 1

/-- Go `bits.Len`: the number of bits needed to represent `n`, i.e. the
least `k` with `n < 2 ^ k` (see `bitsLen_le_iff`). -/
def bitsLen (n : Nat) : Nat := bitsLenAux n n

/-- Models `entrySizeLen` from aof.go: width in bytes of the size header.
The unreachable `panic` branch (max entry size needing more than 32
bits) is modelled as 0 and excluded by hypotheses. -/
def entrySizeLen (maxEntrySize : Nat) : Nat :=
  if bitsLen maxEntrySize ≤ 16 then 2
  else if bitsLen maxEntrySize ≤ 32 then 4
  else 0

/-- Models `readInt` from aof.go: little-endian decode of a byte buffer. -/
def readInt (b : List Nat) : Nat := b.foldr (fun x acc => x + 256 * acc) 0

/-- Models `writeInt` from aof.go: little-endian encode of `n` into `w` bytes,
truncating like `uint16(n)` / `uint32(n)`. -/
def writeInt : Nat → Nat → List Nat
  | 0, _ => []
  | w + 1, n => n % 256 :: writeInt w (n / 256)

/-- Result of one `Entry.read` step (aof.go lines 216-266).
`filled` is the prefix of the payload buffer actually overwritten by
the reads; `consumed` is the number of bytes taken from the stream;
`atEOF` records whether the returned `err` was `io.EOF`. -/
structure DecEntry where
  size : Nat
  filled : List Nat
  flagByte : Nat
  incomplete : Bool
  missing : Nat
  consumed : Nat
  atEOF : Bool
deriving Repr, DecidableEq

/-- Models `Entry.read` from aof.go.  `hw` is the header width, `inc0` the
entry's `incomplete` field before the call (the early return at `n == 0`
leaves it untouched), `s` the stream contents from the current read
position.  Faithful quirks kept from the source:
* the payload loop reassigns `rc` on every iteration, so a short read
  followed by EOF leaves `rc = 0` even though some payload bytes were
  consumed and stored;
* the flag byte is only read when `rc == e.size`;
* `missing` counts a present-but-zero flag byte as missing.

Each read is modelled as serving `min requested remaining` bytes.
This is exact for the program's `bufio.Reader` only while
`s.length ≤ bufioBufSize` (see the header of this file and
`readEntryB_window`); beyond that window the buffered reader
short-reads at refill boundaries and the `rc` reset can tear even a
complete frame.  Every theorem below that decodes a stream therefore
confines it to the window. -/
def readEntry (hw : Nat) (inc0 : Bool) (s : List Nat) : DecEntry :=
  let n := min hw s.length
  if n = 0 then
    { size := 0, filled := [], flagByte := 0, incomplete := inc0,
      missing := 0, consumed := 0, atEOF := true }
  else
    let size := readInt (s.take n ++ List.replicate (hw - n) 0)
    let s1 := s.drop n
    let pc := if n = hw then min size s1.length else 0
    let rc := if n = hw ∧ size ≤ s1.length then size else 0
    let s2 := s1.drop pc
    let readFlag := rc == size
    let flagByte := if readFlag && s2.length != 0 then s2.headD 0 else 0
    let fcons := if readFlag && s2.length != 0 then 1 else 0
    { size := size
      filled := s1.take pc
      flagByte := flagByte
      incomplete := flagByte != fCompleteEntry
      missing := (hw - n) + (size - rc) + (if flagByte = 0 then 1 else 0)
      consumed := n + pc + fcons
      atEOF := if readFlag then s2.length == 0 else n == hw }

/-- The error values of aof.go.  `outOfFuel` is not a source error: it is
the fuel-exhaustion artifact of the loop encoding, unreachable for the
fuel `FoldWithHandler` supplies. -/
inductive AofErr where
  | unexpectedRead
  | completingLast
  | lastIncomplete
  | invalidArgs
  | unexpectedWrite
  | exceedsMaxSize
  | appenderClosed
  | outOfFuel
deriving Repr, DecidableEq

instance {α β : Type} [DecidableEq α] [DecidableEq β] : DecidableEq (Except α β) :=
  fun a b =>
    match a, b with
    | .error x, .error y =>
      if h : x = y then .isTrue (by rw [h]) else .isFalse (fun hh => h (by cases hh; rfl))
    | .ok x, .ok y =>
      if h : x = y then .isTrue (by rw [h]) else .isFalse (fun hh => h (by cases hh; rfl))
    | .error _, .ok _ => .isFalse (fun hh => Except.noConfusion hh)
    | .ok _, .error _ => .isFalse (fun hh => Except.noConfusion hh)

/-- The `Appender` of aof.go, together with its collaborating stream:
`fc` the file contents, `wbuf` the unflushed `bufio.Writer` buffer,
`wfail` whether the underlying stream rejects flushes. -/
structure Appender where
  fc : List Nat
  wbuf : List Nat
  maxEntrySize : Nat
  size : Nat
  closed : Bool
  stickyIoErr : Bool
  wfail : Bool
deriving Repr, DecidableEq

/-- Header width of an appender (`len(app.sharedMem.bufRWEntrySize)`). -/
def Appender.hw (app : Appender) : Nat := entrySizeLen app.maxEntrySize

/-- Models `Appender.close(err)` from aof.go: marks closed and records the
underlying i/o error. -/
def Appender.closeWith (app : Appender) (ioErr : Bool) : Appender :=
  { app with closed := true, stickyIoErr := ioErr }

/-- The view of the shared entry a reducer receives during a traversal
(offset, size and completeness; the payload buffer is shared scratch). -/
structure EntryView where
  off : Nat
  size : Nat
  incomplete : Bool
deriving Repr, DecidableEq

/-- A reducer (`FoldHandler.Fold`) with its state: returns the new
state, the cutoff flag and an optional error. -/
abbrev StepFn (σ : Type) := σ → EntryView → σ × Bool × Option AofErr

/-- The padding written by tail repair: `mb` bytes, all zero except the
last, which is `fIncompleteEntry` (aof.go lines 401-402). -/
def padBytes (mb : Nat) : List Nat := List.replicate (mb - 1) 0 ++ [fIncompleteEntry]

/-- One iteration of the `FoldWithHandler` loop (aof.go lines 395-432).
`inl` = the loop returns, `inr` = next iteration's state.
Faithful quirks kept from the source:
* the repair block's `n, err := app.w.Write(bs)` shadows the outer
  `err`, so the later `err = ErrLastEntryIncomplete` is dead and the
  EOF test and the `cutoff` return both see `Entry.read`'s error;
* on a repair the pad is buffered then flushed (flushing also drains
  any bytes already sitting in the writer's buffer); a flush failure
  closes the appender and returns `ErrCompletingLastEntry`;
* after a repair the loop keeps reading from the pre-repair snapshot
  `s`: the `O_APPEND` write moved the file offset to the new end, so
  the pad is invisible to this traversal's reader.  This, and the
  `readEntry` calls themselves, are exact for the buffered reader only
  while the whole scanned file fits in `bufioBufSize` (the first fill
  then buffers all of it); theorems about traversals carry that bound
  (see `FoldWithHandlerB_window`). -/
def foldIter {σ : Type} (step : StepFn σ) (app : Appender) (s : List Nat)
    (off : Nat) (h : σ) :
    (Appender × σ × Option AofErr) ⊕ (Appender × List Nat × Nat × σ) :=
  let e := readEntry app.hw false s
  let handle : Appender → (Appender × σ × Option AofErr) ⊕ (Appender × List Nat × Nat × σ) :=
    fun a =>
      if e.atEOF then .inl (a, h, none)
      else
        match step h ⟨off, e.size, e.incomplete⟩ with
        | (h', _, some er) => .inl (a, h', some er)
        | (h', true, none) => .inl (a, h', none)
        | (h', false, none) => .inr (a, s.drop e.consumed, off + app.hw + e.size + 1, h')
  if 0 < e.missing then
    if app.wfail then
      .inl (Appender.closeWith { app with wbuf := app.wbuf ++ padBytes e.missing } true,
            h, some .completingLast)
    else
      handle { app with fc := app.fc ++ app.wbuf ++ padBytes e.missing, wbuf := [] }
  else handle app

/-- The `FoldWithHandler` loop with explicit fuel; `outOfFuel` is
unreachable for the fuel `FoldWithHandler` supplies (every iteration
that continues consumes at least one stream byte). -/
def foldLoop {σ : Type} (step : StepFn σ) :
    Nat → Appender → List Nat → Nat → σ → Appender × σ × Option AofErr
  | 0, app, _, _, h => (app, h, some .outOfFuel)
  | fuel + 1, app, s, off, h =>
    match foldIter step app s off h with
    | .inl r => r
    | .inr (a, s', off', h') => foldLoop step fuel a s' off' h'

/-- Models `FoldWithHandler` from aof.go: rejects a closed appender, seeks to
the start and scans the file. -/
def FoldWithHandler {σ : Type} (step : StepFn σ) (app : Appender) (h : σ) :
    Appender × σ × Option AofErr :=
  if app.closed then (app, h, some .appenderClosed)
  else foldLoop step (app.fc.length + 1) app app.fc 0 h

/-- On-disk length of the frame for payload `p`: header + payload + flag. -/
def frameLen (hw : Nat) (p : List Nat) : Nat := hw + p.length + 1

/-- A frame with an arbitrary flag byte. -/
def encFrameF (hw : Nat) (p : List Nat) (f : Nat) : List Nat :=
  writeInt hw p.length ++ p ++ [f]

/-- The frame `AppendBulk` writes for payload `p`. -/
def encFrame (hw : Nat) (p : List Nat) : List Nat := encFrameF hw p fCompleteEntry

/-- A sequence of complete frames. -/
def frames (hw : Nat) (ps : List (List Nat)) : List Nat :=
  (ps.map (encFrame hw)).flatten

/-- The per-item loop of `AppendBulk` (aof.go lines 292-323): validates
each payload, buffers its frame (size header, payload, complete flag)
into the writer, and assigns `app.size + writtenBytes` as its offset.
Returns the offsets, the buffered bytes and the final `writtenBytes`;
on a validation error, the bytes buffered for the earlier items of the
batch are kept (the source has already written them to `app.w`). -/
def appendBulkLoop (hw maxE size : Nat) :
    List (List Nat) → Nat → Except (AofErr × List Nat) (List Nat × List Nat × Nat)
  | [], written => .ok ([], [], written)
  | bs :: rest, written =>
    if bs.length = 0 then .error (.invalidArgs, [])
    else if maxE < bs.length then .error (.exceedsMaxSize, [])
    else
      match appendBulkLoop hw maxE size rest (written + frameLen hw bs) with
      | .error (e, buf) => .error (e, (writeInt hw bs.length ++ bs ++ [fCompleteEntry]) ++ buf)
      | .ok (offs, buf, total) =>
        .ok ((size + written) :: offs,
             (writeInt hw bs.length ++ bs ++ [fCompleteEntry]) ++ buf, total)

/-- Models `AppendBulk` from aof.go: rejects a closed appender and an empty
batch, runs the per-item loop, then flushes once; a flush failure
closes the appender with the i/o error and returns
`ErrUnexpectedWriteErr`; on success the logical size advances by
`writtenBytes`.

The model keeps all buffered bytes in `wbuf` until the flush.  The
program's `bufio.Writer` does the same only while fewer than
`bufioBufSize` bytes accumulate; past that it auto-flushes full
buffers into the file mid-call.  On the success path this makes no
observable difference (the explicit flush lands the same bytes), and
on a broken stream both an auto-flush and a large direct write fail at
the `Write` call, which the source handles exactly like a flush
failure (close plus `ErrUnexpectedWriteErr`); but a conclusion that
bytes of a failed batch stay *out of the file* is program-true only
below the auto-flush threshold, and the theorem that states one
carries that bound. -/
def AppendBulk (app : Appender) (bss : List (List Nat)) :
    Except AofErr (List Nat) × Appender :=
  if app.closed then (.error .appenderClosed, app)
  else if bss.length = 0 then (.error .invalidArgs, app)
  else
    match appendBulkLoop app.hw app.maxEntrySize app.size bss 0 with
    | .error (e, buf) => (.error e, { app with wbuf := app.wbuf ++ buf })
    | .ok (offs, buf, total) =>
      if app.wfail then
        (.error .unexpectedWrite, Appender.closeWith { app with wbuf := app.wbuf ++ buf } true)
      else
        (.ok offs,
         { app with
             fc := app.fc ++ app.wbuf ++ buf
             wbuf := []
             size := app.size + total })

/-- Models `Append` from aof.go: `AppendBulk` of a singleton, returning its
single offset. -/
def Append (app : Appender) (bs : List Nat) : Except AofErr Nat × Appender :=
  match AppendBulk app [bs] with
  | (.error e, a) => (.error e, a)
  | (.ok offs, a) => (.ok (offs.headD 0), a)

/-- A decoded entry as returned by `Read`: `bytes` is `e.bytes[:e.size]`
of a freshly allocated entry (prefix filled from the file, the rest the
zero bytes of the fresh buffer). -/
structure EntryFull where
  off : Nat
  size : Nat
  bytes : List Nat
  incomplete : Bool
deriving Repr, DecidableEq

/-- Result of `Read`: either an error, or the (non-nil) entry together
with whether the accompanying error was `io.EOF`. -/
inductive ReadResult where
  | err (e : AofErr)
  | okE (e : EntryFull) (eof : Bool)
deriving Repr, DecidableEq

/-- Models `Read` from aof.go: validates `0 <= off <= app.size`, seeks and
decodes one frame with `Entry.read` on a fresh entry.  It performs no
writes: the returned appender is the argument, unchanged. -/
def Read (app : Appender) (off : Nat) : ReadResult × Appender :=
  if app.closed then (.err .appenderClosed, app)
  else if app.size < off then (.err .invalidArgs, app)
  else
    let d := readEntry app.hw false (app.fc.drop off)
    (.okE { off := off, size := d.size,
            bytes := d.filled ++ List.replicate (d.size - d.filled.length) 0,
            incomplete := d.incomplete } d.atEOF, app)

/-- Models `sizeFoldHandler.Fold`: accumulates the on-disk frame length of
every folded entry. -/
def sizeStep (hw : Nat) : StepFn Nat := fun sz e => (sz + (hw + e.size + 1), false, none)

/-- A fresh appender over a file with contents `f0`, before the
open-time scan (aof.go lines 135-151). -/
def mkApp (maxE : Nat) (f0 : List Nat) : Appender :=
  { fc := f0, wbuf := [], maxEntrySize := maxE, size := 0, closed := false,
    stickyIoErr := false, wfail := false }

/-- Models `OpenWithConfig` from aof.go on a file with contents `f0` (base
offset 0, read-write): validates the configuration, then scans the file
with `sizeFoldHandler`, installing the computed size (for an invalid
configuration the source returns no appender at all; the appender
returned here alongside `ErrInvalidArguments` is a placeholder). -/
def openLog (maxE : Nat) (f0 : List Nat) : Appender × Option AofErr :=
  if maxE < 1 then (mkApp maxE f0, some .invalidArgs)
  else
    let r := FoldWithHandler (sizeStep (mkApp maxE f0).hw) (mkApp maxE f0) 0
    ({ r.1 with size := r.2.1 }, r.2.2)

/-- Models `forEachHandler` instrumented to count invocations (the user
callback counts the records it receives; cutoff when the count reaches
`k`, never for `k = 0`). -/
def countStep (k : Nat) : StepFn Nat := fun c _ => (c + 1, c + 1 == k, none)

/-- A `ForEach` reducer that records every entry view it receives. -/
def collectStep : StepFn (List EntryView) := fun l e => (l ++ [e], false, none)

/-- Repeated `Append`, stopping at the first error. -/
def appendSeq : Appender → List (List Nat) → List Nat × Appender
  | app, [] => ([], app)
  | app, p :: ps =>
    match Append app p with
    | (.ok off, a) =>
      let r := appendSeq a ps
      (off :: r.1, r.2)
    | (.error _, a) => ([], a)

/-- Repeated `AppendBulk`. -/
def appendBulkSeq : Appender → List (List (List Nat)) → Appender
  | app, [] => app
  | app, bss :: rest => appendBulkSeq (AppendBulk app bss).2 rest

/-- The offsets `AppendBulk` assigns: starting at `s`, each payload's
offset advances by its on-disk frame length. -/
def offsetsFrom (hw s : Nat) : List (List Nat) → List Nat
  | [] => []
  | p :: ps => s :: offsetsFrom hw (s + frameLen hw p) ps

/-- The entry views a traversal delivers for a run of complete frames. -/
def viewsOf (hw : Nat) : List (List Nat) → Nat → List EntryView
  | [], _ => []
  | p :: ps, off => ⟨off, p.length, false⟩ :: viewsOf hw ps (off + frameLen hw p)

/-- Reference run of a reducer over the views of a list of complete
frames: `none` = ran through all frames, `some e` = stopped early with
traversal result `e` (`some none` = cutoff, `some (some er)` = error). -/
def runHandler {σ : Type} (step : StepFn σ) (hw : Nat) :
    List (List Nat) → Nat → σ → σ × Option (Option AofErr)
  | [], _, h => (h, none)
  | p :: ps, off, h =>
    match step h ⟨off, p.length, false⟩ with
    | (h', _, some e) => (h', some (some e))
    | (h', true, none) => (h', some none)
    | (h', false, none) => runHandler step hw ps (off + frameLen hw p) h'

/-- A file with a well-formed prefix of complete frames followed by a
truncated frame: header announcing `L` payload bytes, then `q` (the
payload bytes present), then nothing. -/
def tornFile (maxE : Nat) (ps : List (List Nat)) (L : Nat) (q : List Nat) : List Nat :=
  frames (entrySizeLen maxE) ps ++ (writeInt (entrySizeLen maxE) L ++ q)

/-- A concrete *open* appender over the torn file `[1, 0, 7]` (header
announcing one payload byte, payload present, flag missing) whose
underlying stream rejects writes. -/
def wfailTornApp : Appender := { mkApp 65535 [1, 0, 7] with wfail := true }

/-- The appender a traversal of `wfailTornApp` leaves behind after its
tail repair fails: closed, with the i/o error recorded. -/
def closedAfterRepairFail : Appender :=
  (FoldWithHandler (countStep 0) wfailTornApp 0).1

/-! ## The buffered reader

The definitions above model every read as serving
`min requested remaining` bytes of the stream.  The program actually
reads through `bufio.NewReader(f)`, whose 4096-byte buffer makes reads
short-serve at refill boundaries.  The definitions below model that
reader faithfully; `readEntryB_window`, `FoldWithHandlerB_window`,
`ReadB_window` and `openLogB_window` prove that within the
`bufioBufSize` window the two models coincide, which is why the
theorems over the idealized model carry window hypotheses. -/

/-- State of a `bufio.Reader` over a regular file: `buf` holds the
bytes buffered but not yet served (`b.buf[b.r:b.w]`), `rest` the file
bytes past the reader's underlying file offset. -/
structure RState where
  buf : List Nat
  rest : List Nat
deriving Repr, DecidableEq

/-- Models one call `b.Read(p)` of a `bufio.Reader` (buffer size
`bufioBufSize`) over a regular file, with `len(p) = k`: returns the
bytes served, the new reader state, and whether the call returned
`io.EOF`.  Faithful to `bufio.Read`: a nonempty buffer is served
without touching the file (possibly short); an empty buffer with an
exhausted file returns `(0, io.EOF)`; a request of at least the buffer
size bypasses the buffer and reads the file directly; otherwise one
fill of up to `bufioBufSize` file bytes precedes the copy.  (The
source's reads always request at least one byte — the size header, a
positive payload size, or the flag byte — so `bufio.Read`'s special
case for an empty request is not modelled.) -/
def readB (st : RState) (k : Nat) : List Nat × RState × Bool :=
  if st.buf.length ≠ 0 then
    (st.buf.take k, ⟨st.buf.drop k, st.rest⟩, false)
  else if st.rest.length = 0 then
    ([], st, true)
  else if bufioBufSize ≤ k then
    (st.rest.take k, ⟨[], st.rest.drop k⟩, false)
  else
    ((st.rest.take bufioBufSize).take k,
     ⟨(st.rest.take bufioBufSize).drop k, st.rest.drop bufioBufSize⟩, false)

/-- The payload loop of `Entry.read` (aof.go line 241:
`for rc < e.size && err == nil`) over the buffered reader: each
iteration reassigns `rc` to the bytes served by one `Read(e.bytes[:e.size])`
and overlays them at the start of the payload buffer.  The fuel is an
encoding artifact; every read that keeps the loop going serves at
least one byte, so fuel `remaining + 2` always suffices. -/
def readPayloadB (size : Nat) : Nat → RState → Nat → Bool → List Nat →
    Nat × RState × Bool × List Nat
  | 0, st, rc, eof, pbuf => (rc, st, eof, pbuf)
  | fuel + 1, st, rc, eof, pbuf =>
    if rc < size ∧ eof = false then
      let r := readB st size
      readPayloadB size fuel r.2.1 r.1.length r.2.2 (r.1 ++ pbuf.drop r.1.length)
    else (rc, st, eof, pbuf)

/-- The observables of one `Entry.read` call: the entry fields it sets
(`size`, `incomplete`), its payload buffer afterwards, the returned
missing-bytes count and whether the returned error was `io.EOF`. -/
structure BEntry where
  size : Nat
  pbuf : List Nat
  incomplete : Bool
  missing : Nat
  atEOF : Bool
deriving Repr, DecidableEq

/-- Models `Entry.read` from aof.go over the buffered reader `readB`.
`hw` is the header width, `inc0` the entry's `incomplete` field before
the call (the early return at `n == 0` leaves it untouched), `pbuf0`
the entry's payload buffer before the call (reused when at least
`e.size` long, else freshly allocated as `e.size` zero bytes), `st`
the reader state.  Returns the outcome and the reader state after the
call.  As in `readEntry`, the `ErrUnexpectedReadError` branches never
fire in the fault-free reader model (a regular file yields only
`io.EOF`). -/
def readEntryB (hw : Nat) (inc0 : Bool) (pbuf0 : List Nat) (st : RState) :
    BEntry × RState :=
  let h := readB st hw
  let n := h.1.length
  if n = 0 then
    ({ size := 0, pbuf := pbuf0, incomplete := inc0, missing := 0, atEOF := h.2.2 }, h.2.1)
  else
    let size := readInt (h.1 ++ List.replicate (hw - n) 0)
    let pbuf1 := if pbuf0.length < size then List.replicate size 0 else pbuf0
    let p :=
      if n = hw then
        readPayloadB size (h.2.1.buf.length + h.2.1.rest.length + 2) h.2.1 0 false pbuf1
      else (0, h.2.1, false, pbuf1)
    let f := if p.1 = size then readB p.2.1 1 else ([], p.2.1, p.2.2.1)
    let flagByte := f.1.headD 0
    ({ size := size
       pbuf := p.2.2.2
       incomplete := flagByte != fCompleteEntry
       missing := (hw - n) + (size - p.1) + (if flagByte = 0 then 1 else 0)
       atEOF := f.2.2 },
     f.2.1)

/-- One iteration of the `FoldWithHandler` loop over the buffered
reader, threading the reader state and the shared entry's payload
buffer.  The repair branch empties `rest`: the `O_APPEND` pad write
moves the file offset to the new end of the file, so later refills of
this traversal's reader hit end-of-file, while already-buffered bytes
keep being served. -/
def foldIterB {σ : Type} (step : StepFn σ) (app : Appender) (st : RState)
    (pbuf : List Nat) (off : Nat) (h : σ) :
    (Appender × σ × Option AofErr) ⊕ (Appender × RState × List Nat × Nat × σ) :=
  let r := readEntryB app.hw false pbuf st
  let e := r.1
  let handle : Appender → RState →
      (Appender × σ × Option AofErr) ⊕ (Appender × RState × List Nat × Nat × σ) :=
    fun a st' =>
      if e.atEOF then .inl (a, h, none)
      else
        match step h ⟨off, e.size, e.incomplete⟩ with
        | (h', _, some er) => .inl (a, h', some er)
        | (h', true, none) => .inl (a, h', none)
        | (h', false, none) => .inr (a, st', e.pbuf, off + app.hw + e.size + 1, h')
  if 0 < e.missing then
    if app.wfail then
      .inl (Appender.closeWith { app with wbuf := app.wbuf ++ padBytes e.missing } true,
            h, some .completingLast)
    else
      handle { app with fc := app.fc ++ app.wbuf ++ padBytes e.missing, wbuf := [] }
        ⟨r.2.buf, []⟩
  else handle app r.2

/-- The `FoldWithHandler` loop over the buffered reader, with explicit
fuel (as in `foldLoop`, unreachable for the fuel supplied). -/
def foldLoopB {σ : Type} (step : StepFn σ) :
    Nat → Appender → RState → List Nat → Nat → σ → Appender × σ × Option AofErr
  | 0, app, _, _, _, h => (app, h, some .outOfFuel)
  | fuel + 1, app, st, pbuf, off, h =>
    match foldIterB step app st pbuf off h with
    | .inl r => r
    | .inr (a, st', pbuf', off', h') => foldLoopB step fuel a st' pbuf' off' h'

/-- Models `FoldWithHandler` from aof.go over the buffered reader: the
seek resets the reader (empty buffer, whole file ahead); the shared
entry's payload buffer starts as the `maxEntrySize` zero bytes `Open`
allocates.  (The buffer's contents never influence the traversal's
observables — `foldLoopB_window` holds for every initial buffer.) -/
def FoldWithHandlerB {σ : Type} (step : StepFn σ) (app : Appender) (h : σ) :
    Appender × σ × Option AofErr :=
  if app.closed then (app, h, some .appenderClosed)
  else foldLoopB step (app.fc.length + 1) app ⟨[], app.fc⟩
    (List.replicate app.maxEntrySize 0) 0 h

/-- Models `Read` from aof.go over the buffered reader: the seek
resets the reader to the file suffix at `off`, and `Entry.read` runs
on a fresh entry (`nil` payload buffer).  The entry's exposed bytes
are `e.bytes[:e.size]`. -/
def ReadB (app : Appender) (off : Nat) : ReadResult × Appender :=
  if app.closed then (.err .appenderClosed, app)
  else if app.size < off then (.err .invalidArgs, app)
  else
    let r := readEntryB app.hw false [] ⟨[], app.fc.drop off⟩
    (.okE { off := off, size := r.1.size, bytes := r.1.pbuf.take r.1.size,
            incomplete := r.1.incomplete } r.1.atEOF, app)

/-- Models `OpenWithConfig` from aof.go with the open-time scan running
over the buffered reader. -/
def openLogB (maxE : Nat) (f0 : List Nat) : Appender × Option AofErr :=
  if maxE < 1 then (mkApp maxE f0, some .invalidArgs)
  else
    let r := FoldWithHandlerB (sizeStep (mkApp maxE f0).hw) (mkApp maxE f0) 0
    ({ r.1 with size := r.2.1 }, r.2.2)

/-! ## Basic facts about the codec -/

theorem writeInt_length (w n : Nat) : (writeInt w n).length = w := by
  induction w generalizing n with
  | zero => rfl
  | succ w ih => simp [writeInt, ih]

theorem readInt_cons (a : Nat) (l : List Nat) :
    readInt (a :: l) = a + 256 * readInt l := rfl

theorem readInt_writeInt (w n : Nat) : readInt (writeInt w n) = n % 256 ^ w := by
  induction w generalizing n with
  | zero => simp [writeInt, readInt, Nat.mod_one]
  | succ w ih =>
    rw [writeInt, readInt_cons, ih, pow_succ', Nat.mod_mul]

theorem bitsLenAux_le_iff : ∀ (fuel n k : Nat), n ≤ fuel →
    (bitsLenAux fuel n ≤ k ↔ n < 2 ^ k) := by
  intro fuel
  induction fuel with
  | zero =>
    intro n k hn
    have hn0 : n = 0 := by omega
    subst hn0
    simp only [bitsLenAux, Nat.zero_le, true_iff]
    exact Nat.two_pow_pos k
  | succ fuel ih =>
    intro n k hn
    by_cases h0 : n = 0
    · subst h0
      simp only [bitsLenAux, eq_self_iff_true, if_true, Nat.zero_le, true_iff]
      exact Nat.two_pow_pos k
    · simp only [bitsLenAux, h0, if_false]
      by_cases hk : k = 0
      · subst hk
        simp only [pow_zero]
        omega
      · obtain ⟨k', rfl⟩ : ∃ k', k = k' + 1 := ⟨k - 1, by omega⟩
        have hdiv : n / 2 ≤ fuel := by omega
        rw [Nat.add_le_add_iff_right, ih (n / 2) k' hdiv, pow_succ]
        omega

/-- Characterisation: `bits.Len n` is the least `k` with `n < 2 ^ k`. -/
theorem bitsLen_le_iff (n k : Nat) : bitsLen n ≤ k ↔ n < 2 ^ k :=
  bitsLenAux_le_iff n n k (le_refl n)

theorem entrySizeLen_spec (maxE : Nat) (h1 : 1 ≤ maxE) (h2 : maxE ≤ 4294967295) :
    2 ≤ entrySizeLen maxE ∧ maxE < 256 ^ entrySizeLen maxE := by
  unfold entrySizeLen
  by_cases h16 : bitsLen maxE ≤ 16
  · simp only [h16, if_true]
    refine ⟨le_refl 2, ?_⟩
    have hlt : maxE < 2 ^ 16 := (bitsLen_le_iff maxE 16).mp h16
    have : (256 : Nat) ^ 2 = 2 ^ 16 := by norm_num
    omega
  · have h32 : bitsLen maxE ≤ 32 := by
      rw [bitsLen_le_iff]
      norm_num
      omega
    simp only [h16, if_false, h32, if_true]
    refine ⟨by omega, ?_⟩
    have hlt : maxE < 2 ^ 32 := (bitsLen_le_iff maxE 32).mp h32
    have : (256 : Nat) ^ 4 = 2 ^ 32 := by norm_num
    omega

theorem encFrameF_length (hw : Nat) (p : List Nat) (f : Nat) :
    (encFrameF hw p f).length = frameLen hw p := by
  simp [encFrameF, frameLen, writeInt_length]; omega

theorem frames_cons (hw : Nat) (p : List Nat) (ps : List (List Nat)) :
    frames hw (p :: ps) = encFrameF hw p fCompleteEntry ++ frames hw ps := by
  simp [frames, encFrame]

theorem frames_length (hw : Nat) (ps : List (List Nat)) :
    (frames hw ps).length = (ps.map (frameLen hw)).sum := by
  induction ps with
  | nil => rfl
  | cons p ps ih => simp [frames_cons, ih, encFrameF_length]

theorem frames_length_ge (hw : Nat) (ps : List (List Nat)) :
    ps.length ≤ (frames hw ps).length := by
  induction ps with
  | nil => simp [frames]
  | cons p ps ih =>
    rw [frames_cons]
    have := encFrameF_length hw p fCompleteEntry
    simp only [List.length_append, List.length_cons]
    simp [frameLen] at this
    omega

/-! ## Decoding frames of the three relevant shapes -/

/-- Decoding a frame whose header, payload and flag byte are all
present: a complete decode, no missing bytes, completeness given by the
flag byte. -/
theorem readEntry_frameF (hw : Nat) (p rest : List Nat) (f : Nat) (b0 : Bool)
    (hhw : 1 ≤ hw) (hp : p.length < 256 ^ hw) :
    readEntry hw b0 (encFrameF hw p f ++ rest) =
      { size := p.length, filled := p, flagByte := f,
        incomplete := f != fCompleteEntry,
        missing := if f = 0 then 1 else 0,
        consumed := hw + p.length + 1, atEOF := false } := by
  have harr : encFrameF hw p f ++ rest = writeInt hw p.length ++ (p ++ f :: rest) := by
    simp [encFrameF]
  rw [harr]
  have hlen : (writeInt hw p.length ++ (p ++ f :: rest)).length
      = hw + (p.length + 1 + rest.length) := by
    simp [writeInt_length]; omega
  have hmin : min hw (writeInt hw p.length ++ (p ++ f :: rest)).length = hw := by
    rw [hlen]; omega
  have htake : (writeInt hw p.length ++ (p ++ f :: rest)).take hw = writeInt hw p.length :=
    List.take_left' (writeInt_length hw p.length)
  have hdrop : (writeInt hw p.length ++ (p ++ f :: rest)).drop hw = p ++ f :: rest :=
    List.drop_left' (writeInt_length hw p.length)
  have htakep : (p ++ f :: rest).take p.length = p := List.take_left' rfl
  have hdropp : (p ++ f :: rest).drop p.length = f :: rest := List.drop_left' rfl
  have hn0 : ¬ (hw = 0) := by omega
  have hsz : readInt (writeInt hw p.length) = p.length := by
    rw [readInt_writeInt]; exact Nat.mod_eq_of_lt hp
  have hple : p.length ≤ (p ++ f :: rest).length := by simp
  have hminp : min p.length (p ++ f :: rest).length = p.length := by
    simp only [List.length_append, List.length_cons]; omega
  simp only [readEntry]
  rw [hmin, if_neg hn0, htake, hdrop, Nat.sub_self]
  rw [List.replicate_zero, List.append_nil, hsz, if_pos rfl, hminp, htakep, hdropp]
  rw [if_pos (show hw = hw ∧ p.length ≤ (p ++ f :: rest).length from ⟨rfl, hple⟩)]
  simp

/-- Decoding a truncated frame whose header and full payload are
present but whose flag byte is missing: the flag read hits EOF, one
byte missing. -/
theorem readEntry_tornFull (hw : Nat) (q : List Nat) (b0 : Bool)
    (hhw : 1 ≤ hw) (hq : q.length < 256 ^ hw) :
    readEntry hw b0 (writeInt hw q.length ++ q) =
      { size := q.length, filled := q, flagByte := 0, incomplete := true,
        missing := 1, consumed := hw + q.length, atEOF := true } := by
  have hlen : (writeInt hw q.length ++ q).length = hw + q.length := by
    simp [writeInt_length]
  have hmin : min hw (writeInt hw q.length ++ q).length = hw := by rw [hlen]; omega
  have htake : (writeInt hw q.length ++ q).take hw = writeInt hw q.length :=
    List.take_left' (writeInt_length hw q.length)
  have hdrop : (writeInt hw q.length ++ q).drop hw = q :=
    List.drop_left' (writeInt_length hw q.length)
  have hn0 : ¬ (hw = 0) := by omega
  have hsz : readInt (writeInt hw q.length) = q.length := by
    rw [readInt_writeInt]; exact Nat.mod_eq_of_lt hq
  simp only [readEntry]
  rw [hmin, if_neg hn0, htake, hdrop, Nat.sub_self]
  rw [List.replicate_zero, List.append_nil, hsz, if_pos rfl]
  rw [Nat.min_self, List.take_length, List.drop_length]
  rw [if_pos (show hw = hw ∧ q.length ≤ q.length from ⟨rfl, le_refl _⟩)]
  simp [fCompleteEntry]

/-- Decoding a truncated frame with a full header announcing `L`
payload bytes but fewer than `L` of them present and no flag byte: the
payload loop overwrites `rc` with 0 on its final EOF read, so `missing`
is `L + 1` even though `q.length` payload bytes were consumed. -/
theorem readEntry_tornShort (hw L : Nat) (q : List Nat) (b0 : Bool)
    (hhw : 1 ≤ hw) (hL1 : 1 ≤ L) (hL : L < 256 ^ hw) (hq : q.length < L) :
    readEntry hw b0 (writeInt hw L ++ q) =
      { size := L, filled := q, flagByte := 0, incomplete := true,
        missing := L + 1, consumed := hw + q.length, atEOF := true } := by
  have hlen : (writeInt hw L ++ q).length = hw + q.length := by
    simp [writeInt_length]
  have hmin : min hw (writeInt hw L ++ q).length = hw := by rw [hlen]; omega
  have htake : (writeInt hw L ++ q).take hw = writeInt hw L :=
    List.take_left' (writeInt_length hw L)
  have hdrop : (writeInt hw L ++ q).drop hw = q :=
    List.drop_left' (writeInt_length hw L)
  have hn0 : ¬ (hw = 0) := by omega
  have hsz : readInt (writeInt hw L) = L := by
    rw [readInt_writeInt]; exact Nat.mod_eq_of_lt hL
  have hminq : min L q.length = q.length := by omega
  have hLq : ¬ (L ≤ q.length) := by omega
  have hne : (0 == L) = false := by
    simp only [beq_eq_false_iff_ne, ne_eq]; omega
  simp only [readEntry]
  rw [hmin, if_neg hn0, htake, hdrop, Nat.sub_self]
  rw [List.replicate_zero, List.append_nil, hsz, if_pos rfl, hminq]
  rw [if_neg (show ¬ (hw = hw ∧ L ≤ q.length) from fun hc => hLq hc.2)]
  rw [List.take_length, List.drop_length]
  simp [hne, fCompleteEntry]

/-- Decoding at end of stream: nothing read, `io.EOF`, entry fields
untouched apart from `size = 0`. -/
theorem readEntry_nil (hw : Nat) (b0 : Bool) :
    readEntry hw b0 [] =
      { size := 0, filled := [], flagByte := 0, incomplete := b0,
        missing := 0, consumed := 0, atEOF := true } := by
  simp [readEntry]

/-! ## The traversal loop on streams of known shape -/

/-- At end of stream the loop returns successfully without touching the
appender or the handler. -/
theorem foldLoop_nil {σ : Type} (step : StepFn σ) (fuel : Nat) (app : Appender)
    (off : Nat) (h : σ) :
    foldLoop step (fuel + 1) app [] off h = (app, h, none) := by
  simp [foldLoop, foldIter, readEntry_nil]

/-- A fully present frame with a nonzero flag byte: no repair, the
reducer is invoked once and the loop proceeds past the frame. -/
theorem foldLoop_cons {σ : Type} (step : StepFn σ) (fuel : Nat) (app : Appender)
    (p rest : List Nat) (f off : Nat) (h : σ)
    (hhw : 1 ≤ app.hw) (hf : f ≠ 0) (hp : p.length < 256 ^ app.hw) :
    foldLoop step (fuel + 1) app (encFrameF app.hw p f ++ rest) off h =
      match step h ⟨off, p.length, f != fCompleteEntry⟩ with
      | (h', _, some er) => (app, h', some er)
      | (h', true, none) => (app, h', none)
      | (h', false, none) => foldLoop step fuel app rest (off + app.hw + p.length + 1) h' := by
  have hre := readEntry_frameF app.hw p rest f false hhw hp
  have hdropc : (encFrameF app.hw p f ++ rest).drop (app.hw + p.length + 1) = rest := by
    apply List.drop_left'
    rw [encFrameF_length]; rfl
  simp only [foldLoop, foldIter, hre]
  rw [if_neg hf]
  simp only [Nat.lt_irrefl, if_false, Bool.false_eq_true, if_false, hdropc]
  rcases hs : step h ⟨off, p.length, f != fCompleteEntry⟩ with ⟨h', c, er⟩
  cases er with
  | some e => simp
  | none => cases c with
    | true => simp
    | false => simp

/-- A torn tail (full header announcing `L` bytes, `q.length ≤ L` of
them present, no flag byte): the engine pads, flushes and returns
successfully without invoking the reducer.  When some payload bytes are
present but not all (`q.length < L`), the pad is `L + 1` bytes — more
than the `L - q.length + 1` actually missing — because the read loop
reset `rc` to 0. -/
theorem foldLoop_torn {σ : Type} (step : StepFn σ) (fuel : Nat) (app : Appender)
    (L : Nat) (q : List Nat) (off : Nat) (h : σ)
    (hhw : 1 ≤ app.hw) (hwf : app.wfail = false) (hL1 : 1 ≤ L)
    (hL : L < 256 ^ app.hw) (hq : q.length ≤ L) :
    foldLoop step (fuel + 1) app (writeInt app.hw L ++ q) off h =
      ({ app with
           fc := app.fc ++ app.wbuf ++ padBytes (if q.length = L then 1 else L + 1)
           wbuf := [] }, h, none) := by
  rcases Nat.lt_or_ge q.length L with hlt | hge
  · have hre := readEntry_tornShort app.hw L q false hhw hL1 hL hlt
    have hne : ¬ (q.length = L) := by omega
    simp only [foldLoop, foldIter, hre]
    simp [hwf, hne]
  · have heq : q.length = L := by omega
    subst heq
    have hre := readEntry_tornFull app.hw q false hhw hL
    simp only [foldLoop, foldIter, hre]
    simp [hwf]

/-- Running the loop over a run of complete frames followed by `tail`:
the reducer receives exactly the frames' views; if it neither stops nor
errs, the loop continues into `tail`, one fuel consumed per frame. -/
theorem foldLoop_frames {σ : Type} (step : StepFn σ) (app : Appender)
    (ps : List (List Nat)) :
    ∀ (tail : List Nat) (fuel off : Nat) (h : σ), 1 ≤ app.hw →
    (∀ p ∈ ps, p.length < 256 ^ app.hw) → ps.length < fuel →
    foldLoop step fuel app (frames app.hw ps ++ tail) off h =
      match runHandler step app.hw ps off h with
      | (h', some e) => (app, h', e)
      | (h', none) =>
        foldLoop step (fuel - ps.length) app tail
          (off + (frames app.hw ps).length) h' := by
  induction ps with
  | nil =>
    intro tail fuel off h hhw hps hfuel
    simp [frames, runHandler]
  | cons p ps ih =>
    intro tail fuel off h hhw hps hfuel
    obtain ⟨fl, rfl⟩ : ∃ fl, fuel = fl + 1 := ⟨fuel - 1, by omega⟩
    rw [frames_cons, List.append_assoc]
    rw [foldLoop_cons step fl app p (frames app.hw ps ++ tail) fCompleteEntry off h hhw
      (by simp [fCompleteEntry]) (hps p (List.mem_cons_self p ps))]
    simp only [runHandler, bne_self_eq_false]
    rcases hs : step h ⟨off, p.length, false⟩ with ⟨h', c, er⟩
    cases er with
    | some e => simp
    | none =>
      cases c with
      | true => simp
      | false =>
        simp only []
        have h1 : off + app.hw + p.length + 1 = off + frameLen app.hw p := by
          simp only [frameLen]; omega
        rw [h1, ih tail fl (off + frameLen app.hw p) h' hhw
          (fun x hx => hps x (List.mem_cons_of_mem p hx)) (by simp at hfuel; omega)]
        have h2 : fl + 1 - (p :: ps).length = fl - ps.length := by simp
        have h3 : off + (encFrameF app.hw p fCompleteEntry ++ frames app.hw ps).length
            = off + frameLen app.hw p + (frames app.hw ps).length := by
          simp only [List.length_append, encFrameF_length]
          omega
        rw [h2, h3]

/-- Lemma: `collectStep` records exactly the views of the frames scanned. -/
theorem runHandler_collect (hw : Nat) (ps : List (List Nat)) :
    ∀ (off : Nat) (l : List EntryView),
    runHandler collectStep hw ps off l = (l ++ viewsOf hw ps off, none) := by
  induction ps with
  | nil => intro off l; simp [runHandler, viewsOf]
  | cons p ps ih => intro off l; simp [runHandler, viewsOf, collectStep, ih]

/-- Lemma: `countStep k` for `k = 0` counts the frames scanned, never cutting off. -/
theorem runHandler_count (hw : Nat) (ps : List (List Nat)) :
    ∀ (off c : Nat),
    runHandler (countStep 0) hw ps off c = (c + ps.length, none) := by
  induction ps with
  | nil => intro off c; simp [runHandler]
  | cons p ps ih =>
    intro off c
    simp only [runHandler, countStep]
    have : (c + 1 == 0) = false := by simp
    rw [this]
    simp only []
    rw [ih (off + frameLen hw p) (c + 1)]
    simp
    omega

/-- Lemma: `sizeFoldHandler` accumulates the total on-disk length of the
frames scanned. -/
theorem runHandler_size (hw : Nat) (ps : List (List Nat)) :
    ∀ (off sz : Nat),
    runHandler (sizeStep hw) hw ps off sz = (sz + (ps.map (frameLen hw)).sum, none) := by
  induction ps with
  | nil => intro off sz; simp [runHandler]
  | cons p ps ih =>
    intro off sz
    simp only [runHandler, sizeStep]
    rw [ih (off + frameLen hw p) (sz + (hw + p.length + 1))]
    simp [frameLen]
    omega

/-! ## Append -/

theorem appendBulkLoop_ok (hw maxE size : Nat) (bss : List (List Nat)) :
    ∀ w, (∀ p ∈ bss, 1 ≤ p.length ∧ p.length ≤ maxE) →
    appendBulkLoop hw maxE size bss w =
      .ok (offsetsFrom hw (size + w) bss, (bss.map (encFrame hw)).flatten,
           w + (bss.map (frameLen hw)).sum) := by
  induction bss with
  | nil => intro w _; simp [appendBulkLoop, offsetsFrom]
  | cons p ps ih =>
    intro w hv
    have hp := hv p (List.mem_cons_self p ps)
    have h0 : ¬ (p.length = 0) := by omega
    have h1 : ¬ (maxE < p.length) := by omega
    simp only [appendBulkLoop, h0, if_false, h1]
    rw [ih (w + frameLen hw p) (fun x hx => hv x (List.mem_cons_of_mem p hx))]
    simp only [offsetsFrom, List.map_cons, List.flatten_cons, List.sum_cons]
    have h2 : size + (w + frameLen hw p) = size + w + frameLen hw p := by omega
    have h3 : w + frameLen hw p + (ps.map (frameLen hw)).sum
        = w + (frameLen hw p + (ps.map (frameLen hw)).sum) := by omega
    rw [h2, h3]
    simp [encFrame, encFrameF]

theorem AppendBulk_ok (app : Appender) (bss : List (List Nat))
    (hc : app.closed = false) (hwf : app.wfail = false) (hne : bss ≠ [])
    (hv : ∀ p ∈ bss, 1 ≤ p.length ∧ p.length ≤ app.maxEntrySize) :
    AppendBulk app bss =
      (.ok (offsetsFrom app.hw app.size bss),
       { app with
           fc := app.fc ++ app.wbuf ++ (bss.map (encFrame app.hw)).flatten
           wbuf := []
           size := app.size + (bss.map (frameLen app.hw)).sum }) := by
  have hlne : ¬ (bss.length = 0) := by simpa using hne
  simp only [AppendBulk, hc, Bool.false_eq_true, if_false, hlne]
  rw [appendBulkLoop_ok app.hw app.maxEntrySize app.size bss 0 hv]
  simp [hwf]

theorem Append_ok (app : Appender) (p : List Nat)
    (hc : app.closed = false) (hwf : app.wfail = false)
    (hv : 1 ≤ p.length ∧ p.length ≤ app.maxEntrySize) :
    Append app p =
      (.ok app.size,
       { app with
           fc := app.fc ++ app.wbuf ++ encFrame app.hw p
           wbuf := []
           size := app.size + frameLen app.hw p }) := by
  simp only [Append]
  rw [AppendBulk_ok app [p] hc hwf (by simp) (by simpa using hv)]
  simp [offsetsFrom]

theorem readEntry_missing_incomplete (hw : Nat) (b0 : Bool) (s : List Nat)
    (hm : 0 < (readEntry hw b0 s).missing) : (readEntry hw b0 s).incomplete = true := by
  by_cases h0 : min hw s.length = 0
  · exfalso; simp [readEntry, h0] at hm
  · simp only [readEntry, h0, if_false] at hm ⊢
    set n := min hw s.length with hn
    set size := readInt (List.take n s ++ List.replicate (hw - n) 0) with hsize
    set s1 := List.drop n s with hs1
    set pc := if n = hw then min size s1.length else 0 with hpc
    set rc := if n = hw ∧ size ≤ s1.length then size else 0 with hrc
    set s2 := List.drop pc s1 with hs2
    by_cases hfb : ((rc == size) && (s2.length != 0)) = true
    · by_cases hz : s2.headD 0 = 0
      · have hz' : s2.head?.getD 0 = 0 := by rw [← List.headD_eq_head?]; exact hz
        simp [hfb, hz', fCompleteEntry]
      · exfalso
        obtain ⟨hl, hr⟩ := Bool.and_eq_true_iff.mp hfb
        have hrcsize : rc = size := by simpa using hl
        have hnhw : n = hw := by
          by_contra hne
          have hnlen : n = s.length := by
            rw [hn, Nat.min_def]
            rw [hn, Nat.min_def] at hne
            by_cases hc : hw ≤ s.length
            · simp [hc] at hne
            · simp [hc]
          have hpc0 : pc = 0 := by rw [hpc, if_neg hne]
          have hs1nil : s1 = [] := by rw [hs1, hnlen, List.drop_length]
          have hs2nil : s2 = [] := by rw [hs2, hpc0, hs1nil]; rfl
          rw [hs2nil] at hr
          simp at hr
        rw [if_pos hfb, if_neg hz] at hm
        omega
    · simp [hfb, fCompleteEntry]

/-! ## Composed traversals -/

theorem frames_append (hw : Nat) (a b : List (List Nat)) :
    frames hw (a ++ b) = frames hw a ++ frames hw b := by
  simp [frames]

theorem openLog_eq (maxE : Nat) (f0 : List Nat) (h1 : 1 ≤ maxE) :
    openLog maxE f0 =
      ({ (foldLoop (sizeStep (entrySizeLen maxE)) (f0.length + 1) (mkApp maxE f0) f0 0 0).1 with
           size := (foldLoop (sizeStep (entrySizeLen maxE)) (f0.length + 1) (mkApp maxE f0) f0 0 0).2.1 },
       (foldLoop (sizeStep (entrySizeLen maxE)) (f0.length + 1) (mkApp maxE f0) f0 0 0).2.2) := by
  have hlt : ¬ (maxE < 1) := by omega
  simp [openLog, hlt, FoldWithHandler, mkApp, Appender.hw]

theorem openLog_nil (maxE : Nat) (h1 : 1 ≤ maxE) :
    openLog maxE [] = (mkApp maxE [], none) := by
  rw [openLog_eq maxE [] h1]
  rw [show ([] : List Nat).length + 1 = 0 + 1 from rfl, foldLoop_nil]
  simp [mkApp]

/-- A full traversal of `N` complete frames followed by a torn tail
(header announcing `L` bytes, `q.length ≤ L` of them present, flag
absent), by a reducer that neither stops nor errs on the `N` frames:
the engine feeds the reducer exactly the `N` complete frames, writes
the pad, flushes and returns `nil`. -/
theorem FoldWithHandler_torn {σ : Type} (step : StepFn σ) (app : Appender)
    (ps : List (List Nat)) (L : Nat) (q : List Nat) (h h' : σ)
    (hc : app.closed = false) (hwf : app.wfail = false)
    (h1le : 1 ≤ app.hw)
    (hfc : app.fc = frames app.hw ps ++ (writeInt app.hw L ++ q))
    (hps : ∀ p ∈ ps, p.length < 256 ^ app.hw)
    (hL1 : 1 ≤ L) (hL : L < 256 ^ app.hw) (hq : q.length ≤ L)
    (hrun : runHandler step app.hw ps 0 h = (h', none)) :
    FoldWithHandler step app h =
      ({ app with
           fc := app.fc ++ app.wbuf ++ padBytes (if q.length = L then 1 else L + 1)
           wbuf := [] }, h', none) := by
  have hge := frames_length_ge app.hw ps
  simp only [FoldWithHandler, hc, Bool.false_eq_true, if_false]
  have step1 : foldLoop step (app.fc.length + 1) app app.fc 0 h
      = foldLoop step ((frames app.hw ps ++ (writeInt app.hw L ++ q)).length + 1) app
          (frames app.hw ps ++ (writeInt app.hw L ++ q)) 0 h := by rw [hfc]
  rw [step1]
  rw [foldLoop_frames step app ps (writeInt app.hw L ++ q)
    ((frames app.hw ps ++ (writeInt app.hw L ++ q)).length + 1) 0 h h1le hps
    (by simp only [List.length_append]; omega)]
  rw [hrun]
  simp only []
  obtain ⟨k, hk⟩ : ∃ k,
      (frames app.hw ps ++ (writeInt app.hw L ++ q)).length + 1 - ps.length = k + 1 :=
    ⟨(frames app.hw ps ++ (writeInt app.hw L ++ q)).length - ps.length,
     by simp only [List.length_append]; omega⟩
  rw [hk]
  rw [foldLoop_torn step k app L q ((0 : Nat) + (frames app.hw ps).length) h' h1le hwf hL1 hL hq]
  rw [hc]

/-- A full traversal of `N` complete frames followed by one incomplete
frame (flag byte `fIncompleteEntry`), by a reducer that neither stops
nor errs: the reducer is fed all `N + 1` frames, nothing is repaired,
and the traversal returns `nil`. -/
theorem FoldWithHandler_framesInc {σ : Type} (step : StepFn σ) (app : Appender)
    (ps : List (List Nat)) (p' : List Nat) (h h' h'' : σ)
    (hc : app.closed = false) (h1le : 1 ≤ app.hw)
    (hfc : app.fc = frames app.hw ps ++ encFrameF app.hw p' fIncompleteEntry)
    (hps : ∀ p ∈ ps, p.length < 256 ^ app.hw)
    (hp' : p'.length < 256 ^ app.hw)
    (hrun : runHandler step app.hw ps 0 h = (h', none))
    (hstep : step h' ⟨(frames app.hw ps).length, p'.length, true⟩ = (h'', false, none)) :
    FoldWithHandler step app h = (app, h'', none) := by
  have hge := frames_length_ge app.hw ps
  have hfl : (encFrameF app.hw p' fIncompleteEntry).length = frameLen app.hw p' :=
    encFrameF_length app.hw p' fIncompleteEntry
  have hfl1 : 1 ≤ frameLen app.hw p' := by simp [frameLen]
  simp only [FoldWithHandler, hc, Bool.false_eq_true, if_false]
  have step1 : foldLoop step (app.fc.length + 1) app app.fc 0 h
      = foldLoop step
          ((frames app.hw ps ++ encFrameF app.hw p' fIncompleteEntry).length + 1) app
          (frames app.hw ps ++ encFrameF app.hw p' fIncompleteEntry) 0 h := by rw [hfc]
  rw [step1]
  rw [foldLoop_frames step app ps (encFrameF app.hw p' fIncompleteEntry)
    ((frames app.hw ps ++ encFrameF app.hw p' fIncompleteEntry).length + 1) 0 h h1le hps
    (by simp only [List.length_append]; omega)]
  rw [hrun]
  simp only []
  obtain ⟨k, hk⟩ : ∃ k,
      (frames app.hw ps ++ encFrameF app.hw p' fIncompleteEntry).length + 1 - ps.length
        = k + 1 + 1 :=
    ⟨(frames app.hw ps ++ encFrameF app.hw p' fIncompleteEntry).length - ps.length - 1,
     by simp only [List.length_append, hfl]; omega⟩
  rw [hk]
  rw [show encFrameF app.hw p' fIncompleteEntry
      = encFrameF app.hw p' fIncompleteEntry ++ [] by simp]
  rw [foldLoop_cons step (k + 1) app p' [] fIncompleteEntry
    ((0 : Nat) + (frames app.hw ps).length) h' h1le (by simp [fIncompleteEntry]) hp']
  have hinc : (fIncompleteEntry != fCompleteEntry) = true := by decide
  rw [hinc]
  simp only [Nat.zero_add]
  rw [hstep]
  simp only []
  rw [foldLoop_nil]

/-! ## Offsets and sizes of append sequences -/

theorem offsetsFrom_mem_ge (hw : Nat) (ps : List (List Nat)) :
    ∀ (s : Nat), ∀ x ∈ offsetsFrom hw s ps, s ≤ x := by
  induction ps with
  | nil => intro s x hx; simp [offsetsFrom] at hx
  | cons p ps ih =>
    intro s x hx
    simp only [offsetsFrom, List.mem_cons] at hx
    rcases hx with rfl | hx
    · exact le_refl x
    · have := ih (s + frameLen hw p) x hx
      have h1 : 1 ≤ frameLen hw p := by simp [frameLen]
      omega

theorem offsetsFrom_pairwise (hw : Nat) (ps : List (List Nat)) :
    ∀ (s : Nat), List.Pairwise (· < ·) (offsetsFrom hw s ps) := by
  induction ps with
  | nil => intro s; simp [offsetsFrom]
  | cons p ps ih =>
    intro s
    simp only [offsetsFrom, List.pairwise_cons]
    refine ⟨?_, ih (s + frameLen hw p)⟩
    intro x hx
    have := offsetsFrom_mem_ge hw ps (s + frameLen hw p) x hx
    have h1 : 1 ≤ frameLen hw p := by simp [frameLen]
    omega

theorem offsetsFrom_get (hw : Nat) (ps : List (List Nat)) :
    ∀ (s i : Nat) (hi : i < (offsetsFrom hw s ps).length),
    (offsetsFrom hw s ps).get ⟨i, hi⟩ = s + ((ps.take i).map (frameLen hw)).sum := by
  induction ps with
  | nil => intro s i hi; simp [offsetsFrom] at hi
  | cons p ps ih =>
    intro s i hi
    cases i with
    | zero => simp [offsetsFrom]
    | succ i =>
      simp only [offsetsFrom, List.get_cons_succ]
      rw [ih (s + frameLen hw p) i (by simpa [offsetsFrom] using hi)]
      simp only [List.take_succ_cons, List.map_cons, List.sum_cons]
      omega

theorem offsetsFrom_length (hw s : Nat) (ps : List (List Nat)) :
    (offsetsFrom hw s ps).length = ps.length := by
  induction ps generalizing s with
  | nil => rfl
  | cons p ps ih => simp [offsetsFrom, ih]

/-- Repeated successful `Append`: the collected offsets advance by the
on-disk frame lengths and the size by their total. -/
theorem appendSeq_ok (ps : List (List Nat)) : ∀ (app : Appender),
    app.closed = false → app.wfail = false →
    (∀ p ∈ ps, 1 ≤ p.length ∧ p.length ≤ app.maxEntrySize) →
    (appendSeq app ps).1 = offsetsFrom app.hw app.size ps ∧
    (appendSeq app ps).2.size = app.size + (ps.map (frameLen app.hw)).sum ∧
    (appendSeq app ps).2.closed = false ∧
    (appendSeq app ps).2.wfail = false ∧
    (appendSeq app ps).2.maxEntrySize = app.maxEntrySize := by
  induction ps with
  | nil => intro app hc hwf hv; simp [appendSeq, offsetsFrom, hc, hwf]
  | cons p ps ih =>
    intro app hc hwf hv
    have happ := Append_ok app p hc hwf (hv p (List.mem_cons_self p ps))
    simp only [appendSeq, happ]
    have ih1 := ih
      { app with
          fc := app.fc ++ app.wbuf ++ encFrame app.hw p
          wbuf := []
          size := app.size + frameLen app.hw p }
      hc hwf (fun x hx => hv x (List.mem_cons_of_mem p hx))
    simp only [offsetsFrom, List.map_cons, List.sum_cons]
    refine ⟨?_, ?_, ih1.2.2.1, ih1.2.2.2.1, ih1.2.2.2.2⟩
    · rw [ih1.1]
      simp [Appender.hw]
    · rw [ih1.2.1]
      simp only [Appender.hw]
      omega

/-- Repeated successful `AppendBulk`: the size advances by the total
on-disk length of all appended payloads. -/
theorem appendBulkSeq_ok (bss : List (List (List Nat))) : ∀ (app : Appender),
    app.closed = false → app.wfail = false →
    (∀ bs ∈ bss, bs ≠ [] ∧ ∀ p ∈ bs, 1 ≤ p.length ∧ p.length ≤ app.maxEntrySize) →
    (appendBulkSeq app bss).size = app.size + (bss.flatten.map (frameLen app.hw)).sum ∧
    (appendBulkSeq app bss).closed = false ∧
    (appendBulkSeq app bss).wfail = false ∧
    (appendBulkSeq app bss).maxEntrySize = app.maxEntrySize := by
  induction bss with
  | nil => intro app hc hwf hv; simp [appendBulkSeq, hc, hwf]
  | cons bs bss ih =>
    intro app hc hwf hv
    obtain ⟨hbne, hbv⟩ := hv bs (List.mem_cons_self bs bss)
    have hab := AppendBulk_ok app bs hc hwf hbne hbv
    simp only [appendBulkSeq, hab]
    have ih1 := ih
      { app with
          fc := app.fc ++ app.wbuf ++ (bs.map (encFrame app.hw)).flatten
          wbuf := []
          size := app.size + (bs.map (frameLen app.hw)).sum }
      hc hwf (fun x hx => hv x (List.mem_cons_of_mem bs hx))
    refine ⟨?_, ih1.2.1, ih1.2.2.1, ih1.2.2.2⟩
    rw [ih1.1]
    simp only [List.flatten_cons, List.map_append, List.sum_append, Appender.hw]
    omega

/-- The per-item append loop on a batch whose first invalid payload is
`bad`: the error is reported, and the frames already written for the
earlier (valid) payloads of the batch are left in the writer buffer. -/
theorem appendBulkLoop_error (hw maxE size : Nat) (good : List (List Nat)) :
    ∀ (bad : List Nat) (rest : List (List Nat)) (w : Nat),
    (∀ p ∈ good, 1 ≤ p.length ∧ p.length ≤ maxE) →
    (bad.length = 0 ∨ maxE < bad.length) →
    appendBulkLoop hw maxE size (good ++ bad :: rest) w =
      .error ((if bad.length = 0 then .invalidArgs else .exceedsMaxSize),
              (good.map (encFrame hw)).flatten) := by
  induction good with
  | nil =>
    intro bad rest w _ hbad
    rcases hbad with hb | hb
    · simp [appendBulkLoop, hb]
    · have hb0 : ¬ (bad.length = 0) := by omega
      simp [appendBulkLoop, hb0, hb]
  | cons g good ih =>
    intro bad rest w hv hbad
    have hg := hv g (List.mem_cons_self g good)
    have h0 : ¬ (g.length = 0) := by omega
    have h1 : ¬ (maxE < g.length) := by omega
    simp only [List.cons_append, appendBulkLoop, h0, if_false, h1, List.append_eq]
    rw [ih bad rest (w + frameLen hw g) (fun x hx => hv x (List.mem_cons_of_mem g hx)) hbad]
    simp [encFrame, encFrameF]

/-! ## Claim theorems -/

theorem Appender.hw_def (app : Appender) : app.hw = entrySizeLen app.maxEntrySize := rfl

/-! ## Exactness of the buffered reader within its window

Within `bufioBufSize` bytes of the seek position the buffered reader
cannot short-serve mid-stream: the first read either buffers the whole
remainder in one fill or reads it directly, so every read serves
`min requested remaining` — the idealized model.  The lemmas below
prove the coincidence, one layer at a time. -/

theorem padBytes_length (m : Nat) : (padBytes m).length = m - 1 + 1 := by
  simp [padBytes]

/-- Helper: taking up to the clamped index is taking up to the index. -/
theorem take_min {α : Type} (l : List α) (m : Nat) :
    l.take (min m l.length) = l.take m := by
  by_cases h : m ≤ l.length
  · rw [Nat.min_eq_left h]
  · rw [Nat.min_eq_right (by omega), List.take_length,
      List.take_of_length_le (by omega)]

/-- Helper: dropping up to the clamped index is dropping up to the index. -/
theorem drop_min {α : Type} (l : List α) (m : Nat) :
    l.drop (min m l.length) = l.drop m := by
  by_cases h : m ≤ l.length
  · rw [Nat.min_eq_left h]
  · rw [Nat.min_eq_right (by omega), List.drop_length,
      List.drop_eq_nil_of_le (by omega)]

/-- Helper for conjoined idealized/buffered conclusions. -/
theorem and_self_of_window {α : Type} {x y z : α} (hxy : x = y) (h : y = z) :
    y = z ∧ x = z := ⟨h, hxy.trans h⟩

/-- One buffered read from a good state (everything buffered, or
nothing buffered yet) within the window serves exactly
`min requested remaining` and leaves a good state. -/
theorem readB_window (st : RState) (k : Nat)
    (hI : st.buf = [] ∨ st.rest = [])
    (hwin : st.buf.length + st.rest.length ≤ bufioBufSize) (_hk : 1 ≤ k) :
    readB st k =
      ((st.buf ++ st.rest).take k, ⟨(st.buf ++ st.rest).drop k, []⟩,
       (st.buf ++ st.rest).isEmpty) := by
  obtain ⟨b, r⟩ := st
  rcases hI with hb | hr
  · subst hb
    cases r with
    | nil => simp [readB]
    | cons a r' =>
      simp only [List.nil_append, List.length_nil, Nat.zero_add, List.length_cons] at hwin ⊢
      by_cases hbk : bufioBufSize ≤ k
      · have hd : (a :: r').drop k = [] := by
          apply List.drop_eq_nil_of_le
          simp only [List.length_cons]
          omega
        simp [readB, hbk, hd]
      · have ht : (a :: r').take bufioBufSize = a :: r' := by
          apply List.take_of_length_le
          simp only [List.length_cons]
          omega
        have hd : (a :: r').drop bufioBufSize = [] := by
          apply List.drop_eq_nil_of_le
          simp only [List.length_cons]
          omega
        simp [readB, hbk, ht, hd]
  · subst hr
    cases b with
    | nil => simp [readB]
    | cons a b' => simp [readB]

/-- The buffered payload loop from an all-buffered state within the
window: one read serves `min size remaining` (a second read, if the
first fell short, only returns `io.EOF` and resets `rc` to 0). -/
theorem readPayloadB_window (size fuel : Nat) (s pbuf : List Nat)
    (hfuel : s.length + 2 ≤ fuel) (hwin : s.length ≤ bufioBufSize) :
    readPayloadB size fuel ⟨s, []⟩ 0 false pbuf =
      (if size ≤ s.length then size else 0,
       (⟨s.drop size, []⟩ : RState),
       decide (s.length < size),
       s.take size ++ pbuf.drop (s.take size).length) := by
  obtain ⟨f, rfl⟩ : ∃ f, fuel = f + 1 := ⟨fuel - 1, by omega⟩
  by_cases hsz0 : size = 0
  · subst hsz0
    simp only [readPayloadB]
    rw [if_neg (by simp)]
    simp
  · have hsz : 1 ≤ size := by omega
    have hr1 := readB_window ⟨s, []⟩ size (Or.inr rfl) (by simpa using hwin) hsz
    simp only [List.append_nil] at hr1
    simp only [readPayloadB, and_true]
    rw [if_pos (show 0 < size by omega)]
    rw [hr1]
    cases s with
    | nil =>
      obtain ⟨f1, rfl⟩ : ∃ f1, f = f1 + 1 := ⟨f - 1, by omega⟩
      have hd : decide ((0 : Nat) < size) = true := decide_eq_true (by omega)
      simp [readPayloadB, hd]
      rw [if_neg hsz0]
    | cons a s' =>
      by_cases hle : size ≤ (a :: s').length
      · have hlen : ((a :: s').take size).length = size := by
          rw [List.length_take]
          omega
        obtain ⟨f1, rfl⟩ : ∃ f1, f = f1 + 1 := ⟨f - 1, by omega⟩
        have hd : decide ((a :: s').length < size) = false := decide_eq_false (by omega)
        simp only [List.isEmpty_cons, readPayloadB, hlen, hd, and_true]
        rw [if_neg (by omega : ¬ size < size)]
        rw [if_pos hle]
      · have hlen : ((a :: s').take size).length = (a :: s').length := by
          rw [List.length_take]
          simp only [List.length_cons] at hle ⊢
          omega
        have hds : (a :: s').drop size = [] := List.drop_eq_nil_of_le (by omega)
        obtain ⟨f1, rfl⟩ : ∃ f1, f = f1 + 1 :=
          ⟨f - 1, by simp only [List.length_cons] at hfuel; omega⟩
        have hd : decide ((a :: s').length < size) = true := decide_eq_true (by omega)
        simp only [List.isEmpty_cons, readPayloadB, hlen, hds, hd, and_true]
        rw [if_pos (show (a :: s').length < size by omega)]
        have hr2 : readB ⟨[], []⟩ size = ([], ⟨[], []⟩, true) := by
          simp [readB]
        rw [hr2]
        obtain ⟨f2, rfl⟩ : ∃ f2, f1 = f2 + 1 :=
          ⟨f1 - 1, by simp only [List.length_cons] at hfuel; omega⟩
        simp [readPayloadB]
        rw [if_neg (show ¬ size ≤ s'.length + 1 by simpa using hle)]

/-- The bytes written into the payload buffer never exceed the
announced size. -/
theorem readEntry_filled_le (hw : Nat) (inc0 : Bool) (s : List Nat) :
    (readEntry hw inc0 s).filled.length ≤ (readEntry hw inc0 s).size := by
  by_cases h0 : min hw s.length = 0
  · simp [readEntry, h0]
  · simp only [readEntry, h0, if_false]
    split
    · rw [List.length_take]
      omega
    · simp

/-- The exposed bytes of a fresh entry: the filled prefix followed by
the zero bytes of the fresh allocation. -/
theorem take_fresh_overlay (f : List Nat) (n : Nat) (hle : f.length ≤ n) :
    (f ++ (if ([] : List Nat).length < n then List.replicate n 0
        else ([] : List Nat)).drop f.length).take n
      = f ++ List.replicate (n - f.length) 0 := by
  by_cases hn : 0 < n
  · rw [if_pos (by simpa using hn)]
    rw [List.drop_replicate]
    exact List.take_of_length_le
      (by simp only [List.length_append, List.length_replicate]; omega)
  · have hn0 : n = 0 := by omega
    subst hn0
    have hf : f = [] := List.eq_nil_of_length_eq_zero (by omega)
    subst hf
    simp

/-- Main step of the reader equivalence: one `Entry.read` over the
buffered reader, from a state whose first read serves the stream `s`
ideally, produces exactly the idealized decode of `s` and leaves the
suffix after the consumed bytes fully buffered. -/
theorem readEntryB_main (hw : Nat) (inc0 : Bool) (pbuf0 s : List Nat) (st : RState)
    (hhw : 1 ≤ hw) (hwin : s.length ≤ bufioBufSize)
    (hst : readB st hw = (s.take hw, ⟨s.drop hw, []⟩, s.isEmpty)) :
    readEntryB hw inc0 pbuf0 st =
      ({ size := (readEntry hw inc0 s).size
         pbuf := (readEntry hw inc0 s).filled
           ++ (if pbuf0.length < (readEntry hw inc0 s).size then
                 List.replicate (readEntry hw inc0 s).size 0
               else pbuf0).drop (readEntry hw inc0 s).filled.length
         incomplete := (readEntry hw inc0 s).incomplete
         missing := (readEntry hw inc0 s).missing
         atEOF := (readEntry hw inc0 s).atEOF },
       ⟨s.drop (readEntry hw inc0 s).consumed, []⟩) := by
  simp only [readEntryB]
  rw [hst]
  cases s with
  | nil => simp [readEntry]
  | cons a t =>
    have hn0 : ¬ (min hw (a :: t).length = 0) := by
      simp only [List.length_cons]
      omega
    simp only [List.length_take, readEntry]
    simp only [if_neg hn0]
    rw [take_min, drop_min]
    by_cases hnh : min hw (a :: t).length = hw
    · -- header fully read
      have hhwle : hw ≤ (a :: t).length := by omega
      have hwD : ((a :: t).drop hw).length ≤ bufioBufSize := by
        rw [List.length_drop]
        omega
      rw [hnh]
      simp only [Nat.sub_self, List.replicate_zero, List.append_nil,
        eq_self_iff_true, if_true, true_and]
      simp only [List.length_nil, Nat.add_zero]
      rw [readPayloadB_window (readInt ((a :: t).take hw))
        (((a :: t).drop hw).length + 2) ((a :: t).drop hw)
        (if pbuf0.length < readInt ((a :: t).take hw) then
           List.replicate (readInt ((a :: t).take hw)) 0 else pbuf0)
        (by omega) hwD]
      rw [take_min, drop_min]
      by_cases hrc : readInt ((a :: t).take hw) ≤ ((a :: t).drop hw).length
      · -- payload fully present
        rw [if_pos hrc]
        rw [Nat.min_eq_left hrc]
        simp only [eq_self_iff_true, if_true, beq_self_eq_true, Bool.true_and]
        rw [readB_window ⟨((a :: t).drop hw).drop (readInt ((a :: t).take hw)), []⟩ 1
          (Or.inr rfl)
          (by simp only [List.length_nil, Nat.add_zero, List.length_drop]; omega)
          (le_refl 1)]
        simp only [List.append_nil]
        rcases hemp : ((a :: t).drop hw).drop (readInt ((a :: t).take hw)) with _ | ⟨c, cs⟩
        · have hc := congrArg List.length hemp
          simp only [List.length_drop, List.length_nil, List.length_cons] at hc
          simp [hemp]
          omega
        · have hdd : (a :: t).drop (hw + readInt ((a :: t).take hw) + 1) = cs := by
            have h1 : ((((a :: t).drop hw).drop (readInt ((a :: t).take hw))).drop 1)
                = cs := by
              rw [hemp]
              rfl
            rw [List.drop_drop, List.drop_drop] at h1
            rw [show hw + readInt ((a :: t).take hw) + 1
              = hw + (readInt ((a :: t).take hw) + 1) by omega]
            exact h1
          simp [hdd]
      · -- payload short: rc resets to 0
        rw [if_neg hrc]
        rw [Nat.min_eq_right (by omega)]
        have hsz1 : 1 ≤ readInt ((a :: t).take hw) := by omega
        rw [if_neg (by omega : ¬ (0 = readInt ((a :: t).take hw)))]
        have hbeq : ((0 : Nat) == readInt ((a :: t).take hw)) = false :=
          beq_eq_false_iff_ne.mpr (by omega)
        rw [hbeq]
        simp only [Bool.false_and, Bool.false_eq_true, if_false]
        rw [decide_eq_true (by omega : ((a :: t).drop hw).length
          < readInt ((a :: t).take hw))]
        have hdZ : ((a :: t).drop hw).drop (readInt ((a :: t).take hw)) = [] :=
          List.drop_eq_nil_of_le (by omega)
        have hdd : (a :: t).drop (hw + ((a :: t).drop hw).length) = [] := by
          apply List.drop_eq_nil_of_le
          rw [List.length_drop]
          omega
        simp [hdZ, hdd, hnh]
        omega
    · -- short header: the stream ends inside the size field
      have hlt : (a :: t).length < hw := by omega
      have hmr : min hw (a :: t).length = (a :: t).length := by omega
      rw [hmr]
      rw [if_neg (by omega : ¬ ((a :: t).length = hw))]
      rw [if_neg (by rintro ⟨h1, -⟩; omega :
        ¬ ((a :: t).length = hw ∧ readInt ((a :: t).take hw
          ++ List.replicate (hw - (a :: t).length) 0) ≤ ((a :: t).drop hw).length))]
      have hD : (a :: t).drop hw = [] := List.drop_eq_nil_of_le (by omega)
      have hDl : (a :: t).drop (a :: t).length = [] := List.drop_length (a :: t)
      by_cases hsz0 : readInt ((a :: t).take hw
          ++ List.replicate (hw - (a :: t).length) 0) = 0
      · rw [hsz0]
        simp only [eq_self_iff_true, if_true]
        have hr1 : readB ⟨[], []⟩ 1 = ([], ⟨[], []⟩, true) := by
          simp [readB]
        rw [hD, hr1]
        simp [hDl, hsz0]
      · rw [if_neg (by omega : ¬ ((0 : Nat) = readInt ((a :: t).take hw
          ++ List.replicate (hw - (a :: t).length) 0)))]
        rw [beq_eq_false_iff_ne.mpr (by omega : (0 : Nat) ≠ readInt ((a :: t).take hw
          ++ List.replicate (hw - (a :: t).length) 0))]
        simp only [Bool.false_and, Bool.false_eq_true, if_false]
        rw [hD]
        rw [beq_eq_false_iff_ne.mpr (by omega : (a :: t).length ≠ hw)]
        simp

/-- One `Entry.read` over the buffered reader, from a good state
within the window, is exactly the idealized decode of the remaining
stream, leaving the suffix fully buffered. -/
theorem readEntryB_window (hw : Nat) (inc0 : Bool) (pbuf0 : List Nat) (st : RState)
    (hhw : 1 ≤ hw) (hI : st.buf = [] ∨ st.rest = [])
    (hwin : st.buf.length + st.rest.length ≤ bufioBufSize) :
    readEntryB hw inc0 pbuf0 st =
      ({ size := (readEntry hw inc0 (st.buf ++ st.rest)).size
         pbuf := (readEntry hw inc0 (st.buf ++ st.rest)).filled
           ++ (if pbuf0.length < (readEntry hw inc0 (st.buf ++ st.rest)).size then
                 List.replicate (readEntry hw inc0 (st.buf ++ st.rest)).size 0
               else pbuf0).drop (readEntry hw inc0 (st.buf ++ st.rest)).filled.length
         incomplete := (readEntry hw inc0 (st.buf ++ st.rest)).incomplete
         missing := (readEntry hw inc0 (st.buf ++ st.rest)).missing
         atEOF := (readEntry hw inc0 (st.buf ++ st.rest)).atEOF },
       ⟨(st.buf ++ st.rest).drop (readEntry hw inc0 (st.buf ++ st.rest)).consumed, []⟩) :=
  readEntryB_main hw inc0 pbuf0 (st.buf ++ st.rest) st hhw
    (by rw [List.length_append]; exact hwin)
    (readB_window st hw hI hwin hhw)

/-- The traversal loop over the buffered reader coincides with the
idealized loop from any good reader state within the window — for
every payload buffer, which therefore never influences the traversal's
observables. -/
theorem foldLoopB_window {σ : Type} (step : StepFn σ) :
    ∀ (fuel : Nat) (app : Appender) (st : RState) (pbuf : List Nat) (off : Nat) (h : σ),
      1 ≤ app.hw → (st.buf = [] ∨ st.rest = []) →
      st.buf.length + st.rest.length ≤ bufioBufSize →
      foldLoopB step fuel app st pbuf off h
        = foldLoop step fuel app (st.buf ++ st.rest) off h := by
  intro fuel
  induction fuel with
  | zero => intro app st pbuf off h _ _ _; rfl
  | succ fuel ih =>
    intro app st pbuf off h hhw hI hwin
    have hre := readEntryB_window app.hw false pbuf st hhw hI hwin
    have hmiss : (readEntryB app.hw false pbuf st).1.missing
        = (readEntry app.hw false (st.buf ++ st.rest)).missing := by rw [hre]
    have hsz : (readEntryB app.hw false pbuf st).1.size
        = (readEntry app.hw false (st.buf ++ st.rest)).size := by rw [hre]
    have hinc : (readEntryB app.hw false pbuf st).1.incomplete
        = (readEntry app.hw false (st.buf ++ st.rest)).incomplete := by rw [hre]
    have heof : (readEntryB app.hw false pbuf st).1.atEOF
        = (readEntry app.hw false (st.buf ++ st.rest)).atEOF := by rw [hre]
    have hst2 : (readEntryB app.hw false pbuf st).2
        = ⟨(st.buf ++ st.rest).drop
            (readEntry app.hw false (st.buf ++ st.rest)).consumed, []⟩ := by rw [hre]
    have hrec : ∀ (a : Appender) (off' : Nat) (h' : σ), 1 ≤ a.hw →
        foldLoopB step fuel a
          ⟨(st.buf ++ st.rest).drop
            (readEntry app.hw false (st.buf ++ st.rest)).consumed, []⟩
          (readEntryB app.hw false pbuf st).1.pbuf off' h'
          = foldLoop step fuel a
              ((st.buf ++ st.rest).drop
                (readEntry app.hw false (st.buf ++ st.rest)).consumed) off' h' := by
      intro a off' h' hhw'
      have := ih a
        ⟨(st.buf ++ st.rest).drop
          (readEntry app.hw false (st.buf ++ st.rest)).consumed, []⟩
        (readEntryB app.hw false pbuf st).1.pbuf off' h' hhw' (Or.inr rfl)
        (by simp only [List.length_nil, Nat.add_zero, List.length_drop,
          List.length_append]; omega)
      simpa using this
    simp only [foldLoopB, foldLoop, foldIterB, foldIter, hmiss, hsz, hinc, heof, hst2]
    by_cases hm : 0 < (readEntry app.hw false (st.buf ++ st.rest)).missing
    · simp only [hm, if_true]
      by_cases hwf : app.wfail
      · simp only [hwf, if_true]
      · simp only [hwf, Bool.false_eq_true, if_false]
        by_cases heofb : (readEntry app.hw false (st.buf ++ st.rest)).atEOF
        · simp only [heofb, if_true]
        · simp only [heofb, Bool.false_eq_true, if_false]
          rcases hstep : step h ⟨off, (readEntry app.hw false (st.buf ++ st.rest)).size,
            (readEntry app.hw false (st.buf ++ st.rest)).incomplete⟩ with ⟨h', c, er⟩
          cases er with
          | some e => simp
          | none =>
            cases c with
            | true => simp
            | false =>
              simp only []
              exact hrec _ _ h' hhw
    · simp only [hm, if_false]
      by_cases heofb : (readEntry app.hw false (st.buf ++ st.rest)).atEOF
      · simp only [heofb, if_true]
      · simp only [heofb, Bool.false_eq_true, if_false]
        rcases hstep : step h ⟨off, (readEntry app.hw false (st.buf ++ st.rest)).size,
          (readEntry app.hw false (st.buf ++ st.rest)).incomplete⟩ with ⟨h', c, er⟩
        cases er with
        | some e => simp
        | none =>
          cases c with
          | true => simp
          | false =>
            simp only []
            exact hrec _ _ h' hhw

/-- Models `FoldWithHandler` faithfully: for a file within the
reader's buffer window, the traversal over the buffered reader is the
idealized traversal. -/
theorem FoldWithHandlerB_window {σ : Type} (step : StepFn σ) (app : Appender) (h : σ)
    (hhw : 1 ≤ app.hw) (hwin : app.fc.length ≤ bufioBufSize) :
    FoldWithHandlerB step app h = FoldWithHandler step app h := by
  simp only [FoldWithHandlerB, FoldWithHandler]
  by_cases hc : app.closed
  · simp [hc]
  · simp only [hc, Bool.false_eq_true, if_false]
    have := foldLoopB_window step (app.fc.length + 1) app ⟨[], app.fc⟩
      (List.replicate app.maxEntrySize 0) 0 h hhw (Or.inl rfl) (by simpa using hwin)
    simpa using this

/-- Models `Read` faithfully: when at most `bufioBufSize` bytes remain
past the offset, the read over the buffered reader is the idealized
read. -/
theorem ReadB_window (app : Appender) (off : Nat)
    (hhw : 1 ≤ app.hw) (hwin : app.fc.length - off ≤ bufioBufSize) :
    ReadB app off = Read app off := by
  by_cases hc : app.closed
  · simp [ReadB, Read, hc]
  · by_cases hoff : app.size < off
    · simp [ReadB, Read, hc, hoff]
    · have hre := readEntryB_window app.hw false [] ⟨[], app.fc.drop off⟩ hhw (Or.inl rfl)
        (by simp only [List.length_nil, Nat.zero_add, List.length_drop]; omega)
      simp only [List.nil_append] at hre
      have hsz : (readEntryB app.hw false [] ⟨[], app.fc.drop off⟩).1.size
          = (readEntry app.hw false (app.fc.drop off)).size := by rw [hre]
      have hinc : (readEntryB app.hw false [] ⟨[], app.fc.drop off⟩).1.incomplete
          = (readEntry app.hw false (app.fc.drop off)).incomplete := by rw [hre]
      have heof : (readEntryB app.hw false [] ⟨[], app.fc.drop off⟩).1.atEOF
          = (readEntry app.hw false (app.fc.drop off)).atEOF := by rw [hre]
      have hpb : (readEntryB app.hw false [] ⟨[], app.fc.drop off⟩).1.pbuf
          = (readEntry app.hw false (app.fc.drop off)).filled
            ++ (if ([] : List Nat).length < (readEntry app.hw false (app.fc.drop off)).size
                then List.replicate (readEntry app.hw false (app.fc.drop off)).size 0
                else ([] : List Nat)).drop
              (readEntry app.hw false (app.fc.drop off)).filled.length := by rw [hre]
      simp only [ReadB, Read, hc, hoff, Bool.false_eq_true, if_false,
        hsz, hinc, heof, hpb]
      rw [take_fresh_overlay _ _ (readEntry_filled_le app.hw false (app.fc.drop off))]

/-- Models the open-time scan faithfully within the window. -/
theorem openLogB_window (maxE : Nat) (f0 : List Nat)
    (hhw : 1 ≤ entrySizeLen maxE) (hwin : f0.length ≤ bufioBufSize) :
    openLogB maxE f0 = openLog maxE f0 := by
  simp only [openLogB, openLog]
  by_cases hm : maxE < 1
  · simp [hm]
  · simp only [hm, if_false]
    rw [FoldWithHandlerB_window (sizeStep (mkApp maxE f0).hw) (mkApp maxE f0) 0 hhw hwin]

/-- C9 (confirmed): for every valid offset (`off ≤ size`) on an open
log, `Read` performs no write: the appender (file, writer buffer,
logical size) is returned unchanged and no repair happens — this holds
for every frame, torn or not.  When at most `bufioBufSize` bytes
remain past the offset (the region where the byte-level reader model
is exact, see `ReadB_window`), the result is additionally the (non-nil)
entry decoding the bytes present, and if the frame at that offset is
torn (its decode has missing bytes) the entry's incomplete flag is
set; `ReadB`, the model over the faithful buffered reader, returns the
same. -/
theorem c9_read_no_write (app : Appender) (off : Nat)
    (hc : app.closed = false) (hoff : off ≤ app.size) :
    (Read app off).2 = app ∧
    (ReadB app off).2 = app ∧
    (1 ≤ app.hw → app.fc.length - off ≤ bufioBufSize →
       Read app off =
         (.okE { off := off,
                 size := (readEntry app.hw false (app.fc.drop off)).size,
                 bytes := (readEntry app.hw false (app.fc.drop off)).filled
                   ++ List.replicate ((readEntry app.hw false (app.fc.drop off)).size
                       - (readEntry app.hw false (app.fc.drop off)).filled.length) 0,
                 incomplete := (readEntry app.hw false (app.fc.drop off)).incomplete }
           (readEntry app.hw false (app.fc.drop off)).atEOF, app) ∧
       ReadB app off = Read app off ∧
       (0 < (readEntry app.hw false (app.fc.drop off)).missing →
          (readEntry app.hw false (app.fc.drop off)).incomplete = true)) := by
  have hnlt : ¬ (app.size < off) := by omega
  refine ⟨?_, ?_, ?_⟩
  · simp only [Read, hc, Bool.false_eq_true, if_false, hnlt]
  · simp only [ReadB, hc, Bool.false_eq_true, if_false, hnlt]
  · intro hhw hwin
    refine ⟨?_, ReadB_window app off hhw hwin,
      readEntry_missing_incomplete app.hw false (app.fc.drop off)⟩
    simp only [Read, hc, Bool.false_eq_true, if_false, hnlt]

/-- Witness for C9 at a concrete torn frame: file `[2,0,170]`
(header announcing two payload bytes, one present, no flag), with the
window hypothesis discharged. -/
theorem c9_read_no_write_witness :
    (Read (mkApp 65535 [2, 0, 170]) 0).2 = mkApp 65535 [2, 0, 170] ∧
    (ReadB (mkApp 65535 [2, 0, 170]) 0).2 = mkApp 65535 [2, 0, 170] ∧
    (Read (mkApp 65535 [2, 0, 170]) 0 =
      (.okE { off := 0,
              size := (readEntry (mkApp 65535 [2, 0, 170]).hw false
                ((mkApp 65535 [2, 0, 170]).fc.drop 0)).size,
              bytes := (readEntry (mkApp 65535 [2, 0, 170]).hw false
                  ((mkApp 65535 [2, 0, 170]).fc.drop 0)).filled
                ++ List.replicate ((readEntry (mkApp 65535 [2, 0, 170]).hw false
                      ((mkApp 65535 [2, 0, 170]).fc.drop 0)).size
                    - (readEntry (mkApp 65535 [2, 0, 170]).hw false
                      ((mkApp 65535 [2, 0, 170]).fc.drop 0)).filled.length) 0,
              incomplete := (readEntry (mkApp 65535 [2, 0, 170]).hw false
                ((mkApp 65535 [2, 0, 170]).fc.drop 0)).incomplete }
        (readEntry (mkApp 65535 [2, 0, 170]).hw false
          ((mkApp 65535 [2, 0, 170]).fc.drop 0)).atEOF, mkApp 65535 [2, 0, 170]) ∧
     ReadB (mkApp 65535 [2, 0, 170]) 0 = Read (mkApp 65535 [2, 0, 170]) 0 ∧
     (0 < (readEntry (mkApp 65535 [2, 0, 170]).hw false
           ((mkApp 65535 [2, 0, 170]).fc.drop 0)).missing →
        (readEntry (mkApp 65535 [2, 0, 170]).hw false
           ((mkApp 65535 [2, 0, 170]).fc.drop 0)).incomplete = true)) := by
  have h := c9_read_no_write (mkApp 65535 [2, 0, 170]) 0 (by decide) (by decide)
  exact ⟨h.1, h.2.1, h.2.2 (by decide) (by decide)⟩

/-- C10 (corrected): `Read` at `off = size` (end of a log whose
logical size covers the whole file) passes validation and returns a
non-nil entry of size 0 together with the EOF error — but with
`incomplete = false` (the early return in `Entry.read` leaves the fresh
entry's zero-valued flag untouched), not `true` as claimed. -/
theorem c10_read_at_size (app : Appender)
    (hc : app.closed = false) (hfc : app.fc.length ≤ app.size) :
    Read app app.size =
      (.okE { off := app.size, size := 0, bytes := [], incomplete := false } true, app) := by
  have hdrop : app.fc.drop app.size = [] := List.drop_eq_nil_of_le hfc
  simp only [Read, hc, Bool.false_eq_true, if_false]
  rw [if_neg (lt_irrefl app.size), hdrop, readEntry_nil]
  simp

/-- Witness for C10 on the empty log. -/
theorem c10_read_at_size_witness :
    Read (mkApp 65535 []) (mkApp 65535 []).size =
      (.okE { off := (mkApp 65535 []).size, size := 0, bytes := [], incomplete := false } true,
       mkApp 65535 []) :=
  c10_read_at_size (mkApp 65535 []) (by decide) (by decide)

/-- Counterexample to C10 as stated: on the empty open log, `Read 0`
returns the entry with `incomplete = false`, not `incomplete = true`. -/
theorem c10_counterexample :
    (Read (mkApp 65535 []) 0).1 =
      .okE { off := 0, size := 0, bytes := [], incomplete := false } true ∧
    (Read (mkApp 65535 []) 0).1 ≠
      .okE { off := 0, size := 0, bytes := [], incomplete := true } true := by
  decide

/-- Lemma: `Read` at an offset holding a fully present frame decodes it. -/
theorem Read_at_frame (a : Appender) (off : Nat) (p rest : List Nat) (f : Nat)
    (hc : a.closed = false) (hoffle : off ≤ a.size)
    (hdrop : a.fc.drop off = encFrameF a.hw p f ++ rest)
    (h1le : 1 ≤ a.hw) (hplt : p.length < 256 ^ a.hw) :
    Read a off = (.okE { off := off, size := p.length, bytes := p,
                         incomplete := f != fCompleteEntry } false, a) := by
  have hnlt : ¬ (a.size < off) := by omega
  have hre := readEntry_frameF a.hw p rest f false h1le hplt
  simp only [Read, hc, Bool.false_eq_true, if_false, hnlt, hdrop, hre]
  simp

/-- C3 (corrected, amended): on an open, write-healthy log whose
logical size equals the file length and whose writer buffer is flushed
(the normal state after opening a well-formed file and appending), for
any payload `p` whose frame fits in the reader's buffer
(`hw + len p + 1 ≤ bufioBufSize`, the region where the byte-level
reader model is exact) with `1 ≤ len p ≤ maxEntrySize`, `Append p`
returns the offset `app.size` and `Read` at that offset yields an
entry with `size = len p`, `bytes = p` and `incomplete = false`, with
no error; `ReadB`, the model over the faithful buffered reader,
returns the same.  (The size-equals-file-length restriction is forced
by the counterexample: after opening a *torn* file, the repaired tail
frame is not counted in the logical size, so `Append` assigns an
offset pointing at the repaired frame while the bytes go to the end of
the file, and the round-trip fails.  The frame-fits-buffer bound
confines the statement to the window where `Entry.read` matches the
program's buffered reader: past it the reader short-reads at refill
boundaries and the `rc` reset makes `Read` return a scrambled,
incomplete-flagged entry even for a fully written frame.) -/
theorem c3_roundTrip (app : Appender) (p : List Nat)
    (hc : app.closed = false) (hwf : app.wfail = false)
    (hbuf : app.wbuf = []) (hsz : app.size = app.fc.length)
    (h1 : 1 ≤ app.maxEntrySize) (h2 : app.maxEntrySize ≤ 4294967295)
    (hp1 : 1 ≤ p.length) (hp2 : p.length ≤ app.maxEntrySize)
    (hwin : app.hw + p.length + 1 ≤ bufioBufSize) :
    (Append app p).1 = .ok app.size ∧
    Read (Append app p).2 app.size =
      (.okE { off := app.size, size := p.length, bytes := p, incomplete := false } false,
       (Append app p).2) ∧
    ReadB (Append app p).2 app.size = Read (Append app p).2 app.size := by
  obtain ⟨hhw2, hmax⟩ := entrySizeLen_spec app.maxEntrySize h1 h2
  have hplt : p.length < 256 ^ app.hw := by
    rw [Appender.hw_def]; omega
  have h1le : 1 ≤ app.hw := by
    rw [Appender.hw_def]; omega
  have happ := Append_ok app p hc hwf ⟨hp1, hp2⟩
  rw [happ]
  refine ⟨rfl, ?_, ?_⟩
  · have hdrop : (app.fc ++ app.wbuf ++ encFrame app.hw p).drop app.size
        = encFrameF app.hw p fCompleteEntry ++ [] := by
      rw [hbuf]
      simp only [List.append_nil]
      exact List.drop_left' hsz.symm
    exact Read_at_frame
      { app with
          fc := app.fc ++ app.wbuf ++ encFrame app.hw p
          wbuf := []
          size := app.size + frameLen app.hw p }
      app.size p [] fCompleteEntry hc (Nat.le_add_right app.size (frameLen app.hw p))
      hdrop h1le hplt
  · refine ReadB_window _ app.size ?_ ?_
    · exact h1le
    show (app.fc ++ app.wbuf ++ encFrame app.hw p).length - app.size ≤ bufioBufSize
    have hfl : (encFrame app.hw p).length = app.hw + p.length + 1 := by
      simp [encFrame, encFrameF_length, frameLen]
    simp only [hbuf, List.append_nil, List.length_append]
    omega

/-- Counterexample to C3 as stated: open the torn file `[1, 0, 7]`
(repaired in place to `[1, 0, 7, 1]`, logical size 0), then
`Append [9, 9]` returns offset 0, but `Read 0` yields the repaired
incomplete record of size 1 with payload `[7]` — not size 2, payload
`[9, 9]`, complete. -/
theorem c3_counterexample :
    (openLog 65535 [1, 0, 7]).2 = none ∧
    (openLog 65535 [1, 0, 7]).1.closed = false ∧
    (Append (openLog 65535 [1, 0, 7]).1 [9, 9]).1 = .ok 0 ∧
    (Read (Append (openLog 65535 [1, 0, 7]).1 [9, 9]).2 0).1 =
      .okE { off := 0, size := 1, bytes := [7], incomplete := true } false := by
  decide

/-- Witness for C3: append `[7, 8, 9]` to the empty log and read it back. -/
theorem c3_roundTrip_witness :
    (Append (mkApp 65535 []) [7, 8, 9]).1 = .ok (mkApp 65535 []).size ∧
    Read (Append (mkApp 65535 []) [7, 8, 9]).2 (mkApp 65535 []).size =
      (.okE { off := (mkApp 65535 []).size, size := 3, bytes := [7, 8, 9],
              incomplete := false } false,
       (Append (mkApp 65535 []) [7, 8, 9]).2) ∧
    ReadB (Append (mkApp 65535 []) [7, 8, 9]).2 (mkApp 65535 []).size =
      Read (Append (mkApp 65535 []) [7, 8, 9]).2 (mkApp 65535 []).size :=
  c3_roundTrip (mkApp 65535 []) [7, 8, 9] (by decide) (by decide) (by decide) (by decide)
    (by decide) (by decide) (by decide) (by decide) (by decide)

/-- C4 (confirmed): appending a sequence of valid payloads to a log
opened on an empty file returns, for the i-th payload, the sum of the
on-disk frame lengths (header width + payload length + 1) of all
earlier payloads; the first offset is 0, and the offsets are strictly
increasing (hence unique). -/
theorem c4_offsets (maxE : Nat) (ps : List (List Nat))
    (h1 : 1 ≤ maxE)
    (hv : ∀ p ∈ ps, 1 ≤ p.length ∧ p.length ≤ maxE) :
    (appendSeq (openLog maxE []).1 ps).1 = offsetsFrom (entrySizeLen maxE) 0 ps ∧
    (∀ i (hi : i < (offsetsFrom (entrySizeLen maxE) 0 ps).length),
       (offsetsFrom (entrySizeLen maxE) 0 ps).get ⟨i, hi⟩
         = ((ps.take i).map (frameLen (entrySizeLen maxE))).sum) ∧
    (offsetsFrom (entrySizeLen maxE) 0 ps).headD 0 = 0 ∧
    List.Pairwise (· < ·) (offsetsFrom (entrySizeLen maxE) 0 ps) := by
  refine ⟨?_, ?_, ?_, offsetsFrom_pairwise (entrySizeLen maxE) ps 0⟩
  · rw [openLog_nil maxE h1]
    exact (appendSeq_ok ps (mkApp maxE []) rfl rfl hv).1
  · intro i hi
    have := offsetsFrom_get (entrySizeLen maxE) ps 0 i hi
    simpa using this
  · cases ps with
    | nil => rfl
    | cons p ps => rfl

/-- Witness for C4 with payloads of lengths 1 and 2. -/
theorem c4_offsets_witness :
    (appendSeq (openLog 65535 []).1 [[7], [8, 9]]).1
      = offsetsFrom (entrySizeLen 65535) 0 [[7], [8, 9]] ∧
    (∀ i (hi : i < (offsetsFrom (entrySizeLen 65535) 0 [[7], [8, 9]]).length),
       (offsetsFrom (entrySizeLen 65535) 0 [[7], [8, 9]]).get ⟨i, hi⟩
         = (([[7], [8, 9]].take i).map (frameLen (entrySizeLen 65535))).sum) ∧
    (offsetsFrom (entrySizeLen 65535) 0 [[7], [8, 9]]).headD 0 = 0 ∧
    List.Pairwise (· < ·) (offsetsFrom (entrySizeLen 65535) 0 [[7], [8, 9]]) :=
  c4_offsets 65535 [[7], [8, 9]] (by decide) (by decide)

/-- C5 (confirmed): after any sequence of successful
`Append`/`AppendBulk` calls on a log opened from an empty file, the
logical size equals the sum of `(header width + payload length + 1)`
over all appended payloads (`Append` is `AppendBulk` of a singleton, so
batch sequences cover both). -/
theorem c5_size_accounting (maxE : Nat) (bss : List (List (List Nat)))
    (h1 : 1 ≤ maxE)
    (hv : ∀ bs ∈ bss, bs ≠ [] ∧ ∀ p ∈ bs, 1 ≤ p.length ∧ p.length ≤ maxE) :
    (appendBulkSeq (openLog maxE []).1 bss).size
      = (bss.flatten.map (frameLen (entrySizeLen maxE))).sum := by
  simp only [openLog_nil maxE h1]
  rw [(appendBulkSeq_ok bss (mkApp maxE []) rfl rfl hv).1]
  simp [mkApp, Appender.hw_def]

/-- Witness for C5 with batches `[[7]]` and `[[8, 9], [10]]`. -/
theorem c5_size_accounting_witness :
    (appendBulkSeq (openLog 65535 []).1 [[[7]], [[8, 9], [10]]]).size
      = (([[[7]], [[8, 9], [10]]] : List (List (List Nat))).flatten.map
          (frameLen (entrySizeLen 65535))).sum :=
  c5_size_accounting 65535 [[[7]], [[8, 9], [10]]] (by decide) (by decide)

/-- C6 (corrected): a validation failure in `AppendBulk` returns
the error immediately, does not advance the logical size, does not
close the log and — as long as the bytes accumulated in the writer
stay within its buffer (`bufioBufSize`), so that no auto-flush fires
mid-call — writes nothing to the file; but the frames of the payloads
validated *before* the failing one have already been written to the
buffered writer, where a later flush can make them part of the log;
the claim's "no bytes from that call become observable" fails for such
batches (see the counterexample).  (Past the auto-flush bound the
situation is worse still: the `bufio.Writer` flushes full buffers into
the file before the validation error is even reached.) -/
theorem c6_validation_failure (app : Appender) (good : List (List Nat))
    (bad : List Nat) (rest : List (List Nat)) (hc : app.closed = false)
    (hgood : ∀ p ∈ good, 1 ≤ p.length ∧ p.length ≤ app.maxEntrySize)
    (hbad : bad.length = 0 ∨ app.maxEntrySize < bad.length)
    (_hwin : app.wbuf.length + ((good.map (encFrame app.hw)).flatten).length
      ≤ bufioBufSize) :
    AppendBulk app (good ++ bad :: rest) =
      ((.error (if bad.length = 0 then .invalidArgs else .exceedsMaxSize)),
       { app with wbuf := app.wbuf ++ (good.map (encFrame app.hw)).flatten }) ∧
    AppendBulk app [] = (.error .invalidArgs, app) := by
  constructor
  · have hne : ¬ ((good ++ bad :: rest).length = 0) := by simp
    simp only [AppendBulk, hc, Bool.false_eq_true, if_false]
    rw [if_neg hne]
    rw [appendBulkLoop_error app.hw app.maxEntrySize app.size good bad rest 0 hgood hbad]
  · simp [AppendBulk, hc]

/-- Witness for C6 (amended): batch `[[7], []]` on the empty log fails
with `ErrInvalidArguments`, leaving size, closed flag and file intact
but the frame of `[7]` in the writer buffer. -/
theorem c6_validation_failure_witness :
    AppendBulk (mkApp 65535 []) ([[7]] ++ [] :: []) =
      ((.error (if ([] : List Nat).length = 0 then .invalidArgs else .exceedsMaxSize)),
       { mkApp 65535 [] with
           wbuf := (mkApp 65535 []).wbuf
             ++ (([[7]] : List (List Nat)).map (encFrame (mkApp 65535 []).hw)).flatten }) ∧
    AppendBulk (mkApp 65535 []) [] = (.error .invalidArgs, mkApp 65535 []) :=
  c6_validation_failure (mkApp 65535 []) [[7]] [] [] (by decide) (by decide) (by decide)
    (by decide)

/-- Counterexample to C6 as stated: `AppendBulk [[7], []]` on the empty
log fails validation without closing or resizing, but the frame of the
valid first payload stays in the writer buffer, and a later successful
`Append [9]` flushes it into the file, where `Read 0` then observes the
payload `[7]` from the failed call. -/
theorem c6_counterexample :
    (AppendBulk (mkApp 65535 []) [[7], []]).1 = .error .invalidArgs ∧
    (AppendBulk (mkApp 65535 []) [[7], []]).2.size = 0 ∧
    (AppendBulk (mkApp 65535 []) [[7], []]).2.closed = false ∧
    (AppendBulk (mkApp 65535 []) [[7], []]).2.fc = [] ∧
    (AppendBulk (mkApp 65535 []) [[7], []]).2.wbuf = [1, 0, 7, 2] ∧
    (Read (Append (AppendBulk (mkApp 65535 []) [[7], []]).2 [9]).2 0).1 =
      .okE { off := 0, size := 1, bytes := [7], incomplete := false } false := by
  decide

/-- C7 (confirmed): write/flush failures are fatal.  (a) On a
closed appender every operation fails fast with `ErrAppenderClosed`
and returns the appender unchanged — no bytes are written.  (b) A
write/flush failure during `AppendBulk` on a batch that fits in the
writer's buffer returns `ErrUnexpectedWriteErr` and closes the
appender, recording the i/o error.  (c) A write/flush failure while
repairing a torn tail during a traversal (pad within the writer's
buffer) returns `ErrCompletingLastEntry` and closes the appender,
recording the i/o error.  (The `bufioBufSize` bounds on (b) and (c)
confine the asserted buffer contents to the no-auto-flush window of
the `bufio.Writer`; past it the stream error surfaces at the `Write`
call instead of the `Flush`, which the source handles with the same
close-and-return.) -/
theorem c7_fatal_writes {σ : Type} (app : Appender) (bss : List (List Nat))
    (bs : List Nat) (off : Nat) (step : StepFn σ) (h : σ) :
    (app.closed = true →
       AppendBulk app bss = (.error .appenderClosed, app) ∧
       Append app bs = (.error .appenderClosed, app) ∧
       Read app off = (.err .appenderClosed, app) ∧
       FoldWithHandler step app h = (app, h, some .appenderClosed)) ∧
    (app.closed = false → app.wfail = true → bss ≠ [] →
       (∀ p ∈ bss, 1 ≤ p.length ∧ p.length ≤ app.maxEntrySize) →
       app.wbuf.length + ((bss.map (encFrame app.hw)).flatten).length ≤ bufioBufSize →
       AppendBulk app bss =
         (.error .unexpectedWrite,
          Appender.closeWith
            { app with wbuf := app.wbuf ++ (bss.map (encFrame app.hw)).flatten } true) ∧
       (AppendBulk app bss).2.closed = true ∧
       (AppendBulk app bss).2.stickyIoErr = true) ∧
    (app.closed = false → app.wfail = true →
       app.fc.length ≤ bufioBufSize →
       app.wbuf.length + (readEntry app.hw false app.fc).missing ≤ bufioBufSize →
       0 < (readEntry app.hw false app.fc).missing →
       FoldWithHandler step app h =
         (Appender.closeWith
            { app with wbuf := app.wbuf ++ padBytes (readEntry app.hw false app.fc).missing }
            true,
          h, some .completingLast) ∧
       (FoldWithHandler step app h).1.closed = true ∧
       (FoldWithHandler step app h).1.stickyIoErr = true) := by
  refine ⟨?_, ?_, ?_⟩
  · intro hcl
    refine ⟨?_, ?_, ?_, ?_⟩ <;> simp [AppendBulk, Append, Read, FoldWithHandler, hcl]
  · intro hc hwf hne hv hwin
    have hloop := appendBulkLoop_ok app.hw app.maxEntrySize app.size bss 0 hv
    have hne0 : ¬ (bss.length = 0) := by simpa using hne
    have heq : AppendBulk app bss =
        (.error .unexpectedWrite,
         Appender.closeWith
           { app with wbuf := app.wbuf ++ (bss.map (encFrame app.hw)).flatten } true) := by
      simp only [AppendBulk, hc, Bool.false_eq_true, if_false]
      rw [if_neg hne0, hloop]
      simp [hwf]
    refine ⟨heq, ?_, ?_⟩ <;> rw [heq] <;> rfl
  · intro hc hwf hwinf hwinp hm
    have heq : FoldWithHandler step app h =
        (Appender.closeWith
           { app with wbuf := app.wbuf ++ padBytes (readEntry app.hw false app.fc).missing }
           true,
         h, some .completingLast) := by
      simp only [FoldWithHandler, hc, Bool.false_eq_true, if_false]
      simp only [foldLoop, foldIter]
      rw [if_pos hm]
      simp [hwf]
      rw [hc]
    refine ⟨heq, ?_, ?_⟩ <;> rw [heq] <;> rfl

/-- Witness for C7, exercising every part non-vacuously: the
write-failure parts (b) and (c) on `wfailTornApp` (an *open* appender
over the torn file `[1, 0, 7]` whose stream rejects writes: a valid
append fails fatally, and the traversal's tail repair fails fatally),
then the fail-fast part (a) on `closedAfterRepairFail`, the closed
appender that very repair failure leaves behind. -/
theorem c7_fatal_writes_witness :
    (AppendBulk closedAfterRepairFail [[5]]
       = (.error .appenderClosed, closedAfterRepairFail) ∧
     Append closedAfterRepairFail [5]
       = (.error .appenderClosed, closedAfterRepairFail) ∧
     Read closedAfterRepairFail 0
       = (.err .appenderClosed, closedAfterRepairFail) ∧
     FoldWithHandler (countStep 0) closedAfterRepairFail 0
       = (closedAfterRepairFail, 0, some .appenderClosed)) ∧
    (AppendBulk wfailTornApp [[5]] =
       (.error .unexpectedWrite,
        Appender.closeWith
          { wfailTornApp with
              wbuf := wfailTornApp.wbuf
                ++ (([[5]] : List (List Nat)).map (encFrame wfailTornApp.hw)).flatten }
          true) ∧
     (AppendBulk wfailTornApp [[5]]).2.closed = true ∧
     (AppendBulk wfailTornApp [[5]]).2.stickyIoErr = true) ∧
    (FoldWithHandler (countStep 0) wfailTornApp 0 =
       (Appender.closeWith
          { wfailTornApp with
              wbuf := wfailTornApp.wbuf
                ++ padBytes (readEntry wfailTornApp.hw false wfailTornApp.fc).missing }
          true,
        0, some .completingLast) ∧
     (FoldWithHandler (countStep 0) wfailTornApp 0).1.closed = true ∧
     (FoldWithHandler (countStep 0) wfailTornApp 0).1.stickyIoErr = true) := by
  refine ⟨?_, ?_, ?_⟩
  · exact (c7_fatal_writes closedAfterRepairFail [[5]] [5] 0 (countStep 0) 0).1 (by decide)
  · exact (c7_fatal_writes wfailTornApp [[5]] [5] 0 (countStep 0) 0).2.1
      (by decide) (by decide) (by decide) (by decide) (by decide)
  · exact (c7_fatal_writes wfailTornApp [[5]] [5] 0 (countStep 0) 0).2.2
      (by decide) (by decide) (by decide) (by decide) (by decide)

/-- C8 (confirmed): on a file of complete frames that fits in the
reader's buffer (`bufioBufSize`, the region where the byte-level
reader model is exact), a traversal whose reducer stops (cutoff, no
error) on the k-th decoded record invokes the reducer on exactly k
records — here the reducer runs through `ps1` (k-1 records) without
stopping and returns cutoff on the frame after them — and the
traversal call returns without error, leaving the appender unchanged;
`FoldWithHandlerB`, the model over the faithful buffered reader,
returns the same. -/
theorem c8_cutoff {σ : Type} (step : StepFn σ) (app : Appender)
    (ps1 : List (List Nat)) (pk : List Nat) (ps2 : List (List Nat))
    (h h1 h2 : σ)
    (hc : app.closed = false) (h1le : 1 ≤ app.hw)
    (hfc : app.fc = frames app.hw (ps1 ++ pk :: ps2))
    (hps : ∀ p ∈ ps1 ++ pk :: ps2, p.length < 256 ^ app.hw)
    (hwin : app.fc.length ≤ bufioBufSize)
    (hrun : runHandler step app.hw ps1 0 h = (h1, none))
    (hstep : step h1 ⟨(frames app.hw ps1).length, pk.length, false⟩ = (h2, true, none)) :
    FoldWithHandler step app h = (app, h2, none) ∧
    FoldWithHandlerB step app h = (app, h2, none) := by
  refine and_self_of_window (FoldWithHandlerB_window step app h h1le hwin) ?_
  have hps1 : ∀ p ∈ ps1, p.length < 256 ^ app.hw := fun p hp => hps p (by simp [hp])
  have hpk : pk.length < 256 ^ app.hw := hps pk (by simp)
  have hge := frames_length_ge app.hw ps1
  have hdec : frames app.hw (ps1 ++ pk :: ps2)
      = frames app.hw ps1 ++ (encFrameF app.hw pk fCompleteEntry ++ frames app.hw ps2) := by
    rw [frames_append, frames_cons]
  simp only [FoldWithHandler, hc, Bool.false_eq_true, if_false]
  have step1 : foldLoop step (app.fc.length + 1) app app.fc 0 h
      = foldLoop step
          ((frames app.hw ps1
            ++ (encFrameF app.hw pk fCompleteEntry ++ frames app.hw ps2)).length + 1) app
          (frames app.hw ps1
            ++ (encFrameF app.hw pk fCompleteEntry ++ frames app.hw ps2)) 0 h := by
    rw [hfc, hdec]
  rw [step1]
  rw [foldLoop_frames step app ps1
    (encFrameF app.hw pk fCompleteEntry ++ frames app.hw ps2)
    ((frames app.hw ps1
      ++ (encFrameF app.hw pk fCompleteEntry ++ frames app.hw ps2)).length + 1) 0 h
    h1le hps1 (by simp only [List.length_append]; omega)]
  rw [hrun]
  simp only []
  obtain ⟨k, hk⟩ : ∃ k,
      (frames app.hw ps1
        ++ (encFrameF app.hw pk fCompleteEntry ++ frames app.hw ps2)).length + 1
          - ps1.length = k + 1 :=
    ⟨(frames app.hw ps1
        ++ (encFrameF app.hw pk fCompleteEntry ++ frames app.hw ps2)).length - ps1.length,
     by simp only [List.length_append]; omega⟩
  rw [hk]
  rw [foldLoop_cons step k app pk (frames app.hw ps2) fCompleteEntry
    ((0 : Nat) + (frames app.hw ps1).length) h1 h1le (by simp [fCompleteEntry]) hpk]
  simp only [bne_self_eq_false, Nat.zero_add]
  rw [hstep]

/-- Witness for C8: three one-byte records, cutoff on the second. -/
theorem c8_cutoff_witness :
    FoldWithHandler (countStep 2)
      (mkApp 65535 (frames (entrySizeLen 65535) [[5], [6], [7]])) 0 =
      (mkApp 65535 (frames (entrySizeLen 65535) [[5], [6], [7]]), 2, none) ∧
    FoldWithHandlerB (countStep 2)
      (mkApp 65535 (frames (entrySizeLen 65535) [[5], [6], [7]])) 0 =
      (mkApp 65535 (frames (entrySizeLen 65535) [[5], [6], [7]]), 2, none) :=
  c8_cutoff (countStep 2) (mkApp 65535 (frames (entrySizeLen 65535) [[5], [6], [7]]))
    [[5]] [6] [[7]] 0 1 2 (by decide) (by decide) (by decide) (by decide)
    (by decide) (by decide) (by decide)

/-- C1 (corrected, amended): for every traversal over a file that fits
in the reader's buffer (`bufioBufSize`, the region where the
byte-level reader model is exact) consisting of complete frames
followed by a torn tail whose *header is fully present* (the decode
then ends in EOF), the engine writes the padding, flushes, and
terminates successfully without invoking the reducer on the torn
record and without decoding further records: the final handler state
is exactly the state after the complete frames; `FoldWithHandlerB`,
the model over the faithful buffered reader, returns the same.  (The
amendment excludes torn *headers* decoding to a nonzero size, where the
reducer is invoked on the torn record — see the counterexample — and
files past the buffer window, where the buffered reader's short reads
tear complete frames mid-file and trigger repairs the claim does not
describe.) -/
theorem c1_repair_skips_reducer {σ : Type} (step : StepFn σ) (app : Appender)
    (ps : List (List Nat)) (L : Nat) (q : List Nat) (h h' : σ)
    (hc : app.closed = false) (hwf : app.wfail = false)
    (h1le : 1 ≤ app.hw)
    (hfc : app.fc = frames app.hw ps ++ (writeInt app.hw L ++ q))
    (hps : ∀ p ∈ ps, p.length < 256 ^ app.hw)
    (hL1 : 1 ≤ L) (hL : L < 256 ^ app.hw) (hq : q.length ≤ L)
    (hwin : app.fc.length ≤ bufioBufSize)
    (hrun : runHandler step app.hw ps 0 h = (h', none)) :
    FoldWithHandler step app h =
      ({ app with
           fc := app.fc ++ app.wbuf ++ padBytes (if q.length = L then 1 else L + 1)
           wbuf := [] }, h', none) ∧
    FoldWithHandlerB step app h =
      ({ app with
           fc := app.fc ++ app.wbuf ++ padBytes (if q.length = L then 1 else L + 1)
           wbuf := [] }, h', none) :=
  and_self_of_window (FoldWithHandlerB_window step app h h1le hwin)
    (FoldWithHandler_torn step app ps L q h h' hc hwf h1le hfc hps hL1 hL hq hrun)

/-- Witness for C1 (amended): one complete record, then a header-only
torn tail announcing one payload byte. -/
theorem c1_repair_skips_reducer_witness :
    FoldWithHandler (countStep 0)
      (mkApp 65535 (frames (entrySizeLen 65535) [[9]] ++ (writeInt (entrySizeLen 65535) 1 ++ []))) 0 =
      ({ mkApp 65535 (frames (entrySizeLen 65535) [[9]] ++ (writeInt (entrySizeLen 65535) 1 ++ [])) with
           fc := (mkApp 65535 (frames (entrySizeLen 65535) [[9]]
                    ++ (writeInt (entrySizeLen 65535) 1 ++ []))).fc
             ++ (mkApp 65535 (frames (entrySizeLen 65535) [[9]]
                    ++ (writeInt (entrySizeLen 65535) 1 ++ []))).wbuf
             ++ padBytes (if ([] : List Nat).length = 1 then 1 else 1 + 1)
           wbuf := [] }, 1, none) ∧
    FoldWithHandlerB (countStep 0)
      (mkApp 65535 (frames (entrySizeLen 65535) [[9]] ++ (writeInt (entrySizeLen 65535) 1 ++ []))) 0 =
      ({ mkApp 65535 (frames (entrySizeLen 65535) [[9]] ++ (writeInt (entrySizeLen 65535) 1 ++ [])) with
           fc := (mkApp 65535 (frames (entrySizeLen 65535) [[9]]
                    ++ (writeInt (entrySizeLen 65535) 1 ++ []))).fc
             ++ (mkApp 65535 (frames (entrySizeLen 65535) [[9]]
                    ++ (writeInt (entrySizeLen 65535) 1 ++ []))).wbuf
             ++ padBytes (if ([] : List Nat).length = 1 then 1 else 1 + 1)
           wbuf := [] }, 1, none) :=
  c1_repair_skips_reducer (countStep 0)
    (mkApp 65535 (frames (entrySizeLen 65535) [[9]] ++ (writeInt (entrySizeLen 65535) 1 ++ [])))
    [[9]] 1 [] 0 1 (by decide) (by decide) (by decide) (by decide) (by decide)
    (by decide) (by decide) (by decide) (by decide) (by decide)

/-- Counterexample to C1 as stated: a file consisting of the single
byte `5` is a torn *header*.  The traversal repairs it (pads the file
to `[5,0, 0,0,0,0,0, 1]`) and returns successfully, but the counting
reducer ends at 1, i.e. the reducer *was* invoked on the torn record,
contradicting "without invoking the reducer on the torn record". -/
theorem c1_counterexample :
    FoldWithHandler (countStep 0) (mkApp 65535 [5]) 0 =
      ({ mkApp 65535 [5] with fc := [5, 0, 0, 0, 0, 0, 0, 1], wbuf := [] }, 1, none) := by
  decide

/-- When the truncated tail has either no payload bytes or all of them
(`q.length = 0` or `q.length = L`), the repair pad turns it into a
well-formed frame flagged `INCOMPLETE` whose payload is `q` zero-filled
to length `L`. -/
theorem repaired_tail_shape (hw L : Nat) (q : List Nat)
    (hL1 : 1 ≤ L) (hq : q.length = 0 ∨ q.length = L) :
    (writeInt hw L ++ q) ++ padBytes (if q.length = L then 1 else L + 1)
      = encFrameF hw (q ++ List.replicate (L - q.length) 0) fIncompleteEntry := by
  rcases hq with hq0 | hqL
  · obtain rfl : q = [] := List.length_eq_zero.mp hq0
    have hne : ¬ (([] : List Nat).length = L) := by simp; omega
    simp only [encFrameF, padBytes, if_neg hne, List.nil_append, List.length_nil,
      Nat.sub_zero, List.length_replicate, List.append_nil, Nat.add_sub_cancel]
    simp
    rw [if_neg (show ¬ ((0 : Nat) = L) from by omega)]
    omega
  · have : L - q.length = 0 := by omega
    simp only [encFrameF, padBytes, if_pos hqL, this, List.replicate_zero, List.append_nil,
      hqL, Nat.sub_self]
    simp

/-- Opening a file consisting of complete frames followed by a torn
tail: the scan sums the complete frames' lengths, pads the tail and
succeeds. -/
theorem openLog_torn (maxE : Nat) (ps : List (List Nat)) (L : Nat) (q : List Nat)
    (h1 : 1 ≤ maxE) (h1le : 1 ≤ entrySizeLen maxE)
    (hps : ∀ p ∈ ps, p.length < 256 ^ entrySizeLen maxE)
    (hL1 : 1 ≤ L) (hL : L < 256 ^ entrySizeLen maxE) (hq : q.length ≤ L) :
    openLog maxE (tornFile maxE ps L q) =
      ({ mkApp maxE (tornFile maxE ps L q) with
           fc := tornFile maxE ps L q ++ padBytes (if q.length = L then 1 else L + 1)
           wbuf := []
           size := (ps.map (frameLen (entrySizeLen maxE))).sum }, none) := by
  have hlt : ¬ (maxE < 1) := by omega
  have ht := FoldWithHandler_torn (sizeStep ((mkApp maxE (tornFile maxE ps L q)).hw))
    (mkApp maxE (tornFile maxE ps L q)) ps L q 0
    (0 + (ps.map (frameLen (entrySizeLen maxE))).sum)
    rfl rfl h1le rfl hps hL1 hL hq (runHandler_size (entrySizeLen maxE) ps 0 0)
  simp only [openLog, hlt, if_false]
  rw [ht]
  simp [mkApp]

/-- Opening a file consisting of complete frames followed by one
incomplete frame: the scan sums all the frames and repairs nothing. -/
theorem openLog_framesInc (maxE : Nat) (ps : List (List Nat)) (p' : List Nat)
    (h1 : 1 ≤ maxE) (h1le : 1 ≤ entrySizeLen maxE)
    (hps : ∀ p ∈ ps, p.length < 256 ^ entrySizeLen maxE)
    (hp' : p'.length < 256 ^ entrySizeLen maxE) :
    openLog maxE (frames (entrySizeLen maxE) ps
        ++ encFrameF (entrySizeLen maxE) p' fIncompleteEntry) =
      ({ mkApp maxE (frames (entrySizeLen maxE) ps
            ++ encFrameF (entrySizeLen maxE) p' fIncompleteEntry) with
           size := (ps.map (frameLen (entrySizeLen maxE))).sum
             + (entrySizeLen maxE + p'.length + 1) }, none) := by
  have hlt : ¬ (maxE < 1) := by omega
  have ht := FoldWithHandler_framesInc
    (sizeStep ((mkApp maxE (frames (entrySizeLen maxE) ps
        ++ encFrameF (entrySizeLen maxE) p' fIncompleteEntry)).hw))
    (mkApp maxE (frames (entrySizeLen maxE) ps
        ++ encFrameF (entrySizeLen maxE) p' fIncompleteEntry))
    ps p' 0 (0 + (ps.map (frameLen (entrySizeLen maxE))).sum)
    (0 + (ps.map (frameLen (entrySizeLen maxE))).sum + (entrySizeLen maxE + p'.length + 1))
    rfl h1le rfl hps hp' (runHandler_size (entrySizeLen maxE) ps 0 0) rfl
  simp only [openLog, hlt, if_false]
  rw [ht]
  simp [mkApp]

/-- C2 (corrected, amended): for a file of `N` complete frames
followed by a truncated frame with *no partial payload bytes* (either
only the header is present beyond the previous frame — no payload
bytes — or the full payload is present and only the flag byte is
missing), the truncated file plus the worst-case repair pad (the
announced payload length plus one byte) fitting in the reader's buffer
(`bufioBufSize`, the region where the byte-level reader model is
exact), a single open pads the tail in place (zero fill plus a final
`INCOMPLETE` byte), succeeds, leaves the first `N` frames
byte-for-byte unchanged, and afterwards any traversal or second open
decodes exactly `N + 1` well-formed frames with no missing bytes, the
`(N+1)`-th marked incomplete, repairing nothing further; the last
three conjuncts assert that `openLogB` and `FoldWithHandlerB`, the
models over the faithful buffered reader, agree with the idealized
scans used above.  (The restriction on `q` is forced by the
counterexample: with a partial payload the repair pads `L + 1` bytes
instead of the `L - q.length + 1` actually missing, and the resulting
file is not a well-formed frame sequence.  The buffer-window bound
excludes files where the buffered reader's short reads tear complete
frames, triggering mid-file repairs the claim does not describe.) -/
theorem c2_repair_single_open (maxE : Nat) (ps : List (List Nat)) (L : Nat) (q : List Nat)
    (h1 : 1 ≤ maxE) (h2 : maxE ≤ 4294967295)
    (hps : ∀ p ∈ ps, 1 ≤ p.length ∧ p.length ≤ maxE)
    (hL1 : 1 ≤ L) (hLm : L ≤ maxE)
    (hq : q.length = 0 ∨ q.length = L)
    (hwin : (tornFile maxE ps L q).length + (L + 1) ≤ bufioBufSize) :
    (openLog maxE (tornFile maxE ps L q)).2 = none ∧
    (openLog maxE (tornFile maxE ps L q)).1.fc
      = tornFile maxE ps L q ++ padBytes (if q.length = L then 1 else L + 1) ∧
    (openLog maxE (tornFile maxE ps L q)).1.fc.take (frames (entrySizeLen maxE) ps).length
      = frames (entrySizeLen maxE) ps ∧
    FoldWithHandler collectStep (openLog maxE (tornFile maxE ps L q)).1 [] =
      ((openLog maxE (tornFile maxE ps L q)).1,
       viewsOf (entrySizeLen maxE) ps 0
         ++ [⟨(frames (entrySizeLen maxE) ps).length, L, true⟩], none) ∧
    (openLog maxE (openLog maxE (tornFile maxE ps L q)).1.fc).1.fc
      = (openLog maxE (tornFile maxE ps L q)).1.fc ∧
    (openLog maxE (openLog maxE (tornFile maxE ps L q)).1.fc).2 = none ∧
    openLogB maxE (tornFile maxE ps L q) = openLog maxE (tornFile maxE ps L q) ∧
    FoldWithHandlerB collectStep (openLog maxE (tornFile maxE ps L q)).1 []
      = FoldWithHandler collectStep (openLog maxE (tornFile maxE ps L q)).1 [] ∧
    openLogB maxE (openLog maxE (tornFile maxE ps L q)).1.fc
      = openLog maxE (openLog maxE (tornFile maxE ps L q)).1.fc := by
  obtain ⟨hhw2, hmax⟩ := entrySizeLen_spec maxE h1 h2
  have h1le : 1 ≤ entrySizeLen maxE := by omega
  have hps' : ∀ p ∈ ps, p.length < 256 ^ entrySizeLen maxE := by
    intro p hp
    have := (hps p hp).2
    omega
  have hL' : L < 256 ^ entrySizeLen maxE := by omega
  have hqle : q.length ≤ L := by rcases hq with hh | hh <;> omega
  have hopen := openLog_torn maxE ps L q h1 h1le hps' hL1 hL' hqle
  have hp'len : (q ++ List.replicate (L - q.length) 0).length = L := by
    simp only [List.length_append, List.length_replicate]
    omega
  have hp' : (q ++ List.replicate (L - q.length) 0).length < 256 ^ entrySizeLen maxE := by
    omega
  have hshape : tornFile maxE ps L q ++ padBytes (if q.length = L then 1 else L + 1)
      = frames (entrySizeLen maxE) ps
        ++ encFrameF (entrySizeLen maxE) (q ++ List.replicate (L - q.length) 0)
             fIncompleteEntry := by
    simp only [tornFile]
    rw [List.append_assoc]
    rw [repaired_tail_shape (entrySizeLen maxE) L q hL1 hq]
  have hrlen : (tornFile maxE ps L q
      ++ padBytes (if q.length = L then 1 else L + 1)).length ≤ bufioBufSize := by
    rw [List.length_append, padBytes_length]
    split <;> omega
  refine ⟨by rw [hopen], by simp only [hopen], ?_, ?_, ?_, ?_, ?_, ?_, ?_⟩
  · simp only [hopen]
    simp only [tornFile]
    rw [List.append_assoc]
    exact List.take_left (frames (entrySizeLen maxE) ps) _
  · simp only [hopen]
    have hrunc := runHandler_collect (entrySizeLen maxE) ps 0 []
    rw [List.nil_append] at hrunc
    have hres := FoldWithHandler_framesInc collectStep
      { mkApp maxE (tornFile maxE ps L q) with
          fc := tornFile maxE ps L q ++ padBytes (if q.length = L then 1 else L + 1)
          wbuf := []
          size := (ps.map (frameLen (entrySizeLen maxE))).sum }
      ps (q ++ List.replicate (L - q.length) 0) []
      (viewsOf (entrySizeLen maxE) ps 0)
      (viewsOf (entrySizeLen maxE) ps 0
        ++ [⟨(frames (entrySizeLen maxE) ps).length,
             (q ++ List.replicate (L - q.length) 0).length, true⟩])
      rfl h1le hshape hps' hp' hrunc rfl
    rw [hp'len] at hres
    exact hres
  · simp only [hopen]
    have h2nd := openLog_framesInc maxE ps (q ++ List.replicate (L - q.length) 0)
      h1 h1le hps' hp'
    rw [hshape, h2nd]
    simp [mkApp]
  · simp only [hopen]
    have h2nd := openLog_framesInc maxE ps (q ++ List.replicate (L - q.length) 0)
      h1 h1le hps' hp'
    rw [hshape, h2nd]
  · exact openLogB_window maxE (tornFile maxE ps L q) h1le (by omega)
  · simp only [hopen]
    apply FoldWithHandlerB_window
    · exact h1le
    · exact hrlen
  · simp only [hopen]
    apply openLogB_window
    · exact h1le
    · exact hrlen

/-- Witness for C2 (amended): one complete record `[9]`, then a tail
with header announcing one byte and nothing else. -/
theorem c2_repair_single_open_witness :
    (openLog 65535 (tornFile 65535 [[9]] 1 [])).2 = none ∧
    (openLog 65535 (tornFile 65535 [[9]] 1 [])).1.fc
      = tornFile 65535 [[9]] 1 []
        ++ padBytes (if ([] : List Nat).length = 1 then 1 else 1 + 1) ∧
    (openLog 65535 (tornFile 65535 [[9]] 1 [])).1.fc.take
        (frames (entrySizeLen 65535) [[9]]).length
      = frames (entrySizeLen 65535) [[9]] ∧
    FoldWithHandler collectStep (openLog 65535 (tornFile 65535 [[9]] 1 [])).1 [] =
      ((openLog 65535 (tornFile 65535 [[9]] 1 [])).1,
       viewsOf (entrySizeLen 65535) [[9]] 0
         ++ [⟨(frames (entrySizeLen 65535) [[9]]).length, 1, true⟩], none) ∧
    (openLog 65535 (openLog 65535 (tornFile 65535 [[9]] 1 [])).1.fc).1.fc
      = (openLog 65535 (tornFile 65535 [[9]] 1 [])).1.fc ∧
    (openLog 65535 (openLog 65535 (tornFile 65535 [[9]] 1 [])).1.fc).2 = none ∧
    openLogB 65535 (tornFile 65535 [[9]] 1 []) = openLog 65535 (tornFile 65535 [[9]] 1 []) ∧
    FoldWithHandlerB collectStep (openLog 65535 (tornFile 65535 [[9]] 1 [])).1 []
      = FoldWithHandler collectStep (openLog 65535 (tornFile 65535 [[9]] 1 [])).1 [] ∧
    openLogB 65535 (openLog 65535 (tornFile 65535 [[9]] 1 [])).1.fc
      = openLog 65535 (openLog 65535 (tornFile 65535 [[9]] 1 [])).1.fc :=
  c2_repair_single_open 65535 [[9]] 1 [] (by decide) (by decide) (by decide)
    (by decide) (by decide) (by decide) (by decide)

/-- Counterexample to C2 as stated: `N = 0` complete frames followed by
a truncated frame `[2, 0, 170]` (header announcing two payload bytes,
*one* payload byte present).  The single open pads `size + 1 = 3`
bytes — more than the two actually missing — producing
`[2, 0, 170, 0, 0, 1]`, which is not a well-formed frame (one byte too
long).  A traversal of the repaired log then decodes *two* records
(not exactly `N + 1 = 1`) and performs further repairs (the file
changes again), contradicting the claim. -/
theorem c2_counterexample :
    (openLog 65535 [2, 0, 170]).1.fc = [2, 0, 170, 0, 0, 1] ∧
    (FoldWithHandler collectStep (openLog 65535 [2, 0, 170]).1 []).2.1.length = 2 ∧
    (FoldWithHandler collectStep (openLog 65535 [2, 0, 170]).1 []).1.fc ≠
      (openLog 65535 [2, 0, 170]).1.fc := by
  decide

end Aof
